import Mathlib

/-!
Verification of the logTerminator ingestion and persistence core.

This file gives a shallow embedding, in Lean 4, of the parts of the
Rust sources relevant to the checked claims:

* `src-tauri/src/log_parser.rs` (filename grammar, HTML-row extraction),
* `src-tauri/src/database.rs` (paginated filtered reads, entry-to-page
  resolution, automatic bookmark synthesis),
* `src-tauri/src/http_async/async_fetcher.rs` (chunked download strategy),
* `src-tauri/src/http_async/download_coordinator.rs` (session pipeline),
* `src-tauri/src/bookmark_utils.rs` (auto bookmark markers).

Strings are modelled as `List Char` (the sources operate on UTF-8 byte
strings; the inputs of interest are ASCII, where char positions and byte
positions coincide).  Machine integers: Rust `usize` division is partial
(division by zero panics) and is modelled by an explicit output
constructor; `usize` parsing carries the `2^64` overflow bound.
SQLite behaviour reflected in the model: `LIKE` is ASCII
case-insensitive, `=`/`IN` on TEXT columns is binary comparison, and
`ORDER BY timestamp` is modelled as a stable sort over row order.
-/

namespace LogTerm

/-- Convert a string literal into the `List Char` model used throughout. -/
def strL (s : String) : List Char := s.data

/-- Lower-case an ASCII letter, the identity elsewhere
(model of Rust `to_ascii_lowercase` / SQLite LIKE folding). -/
def lowerC (c : Char) : Char :=
  if 'A' ≤ c ∧ c ≤ 'Z' then Char.ofNat (c.toNat + 32) else c

/-- `leadsL p s` is true when `p` occurs at the very start of `s`. -/
def leadsL : List Char → List Char → Bool
  | [], _ => true
  | _ :: _, [] => false
  | a :: as, b :: bs => a = b && leadsL as bs

/-- `occursAtB p s i`: the pattern `p` occurs in `s` starting at index `i`. -/
def occursAtB (p s : List Char) (i : Nat) : Bool :=
  leadsL p (s.drop i)

/-- Least `i < n` with `q i`, if any (helper for `str::find`). -/
def firstHit (q : Nat → Bool) : Nat → Option Nat
  | 0 => none
  | n + 1 =>
    match firstHit q n with
    | some i => some i
    | none => if q n then some n else none

/-- Greatest `i < n` with `q i`, if any (helper for `str::rfind`). -/
def lastHit (q : Nat → Bool) : Nat → Option Nat
  | 0 => none
  | n + 1 => if q n then some n else lastHit q n

/-- Model of Rust `str::find` for a non-empty pattern: index of the first
occurrence of `p` in `s`. -/
def findSub (s p : List Char) : Option Nat :=
  firstHit (occursAtB p s) (s.length + 1)

/-- Model of Rust `str::rfind` for a non-empty pattern: index of the last
occurrence of `p` in `s`. -/
def rfindSub (s p : List Char) : Option Nat :=
  lastHit (occursAtB p s) (s.length + 1)

/-- Model of Rust `str::ends_with`. -/
def endsWithB (s suf : List Char) : Bool :=
  leadsL suf.reverse s.reverse

/-- Model of Rust `"...".parse::<usize>()`: an optional leading `+`,
then one or more decimal digits, subject to the `usize::MAX` bound. -/
def parseUsizeOpt (s : List Char) : Option Nat :=
  let t := match s with
    | '+' :: r => r
    | _ => s
  if t.isEmpty then none
  else if t.all Char.isDigit then
    let v := t.foldl (fun a c => a * 10 + (c.toNat - 48)) 0
    if v < 2 ^ 64 then some v else none
  else none

def dashesL : List Char := strL "---"
def htmlL : List Char := strL ".html"
def idTagL : List Char := strL "_ID_"

/-- Embedding of `HtmlLogParser::is_test_log_file` (log_parser.rs):
require the `.html` suffix, locate the last `---`, take the text up to the
first `.html` after it and require it to parse as `usize`, then require
`_ID_` to occur in the part before `---` at a position other than 0;
the session key is that whole part before `---`. -/
def is_test_log_file (f : List Char) : Option (List Char) :=
  if endsWithB f htmlL then
    match rfindSub f dashesL with
    | none => none
    | some dash =>
      let after := f.drop (dash + 3)
      match findSub after htmlL with
      | none => none
      | some dot =>
        if (parseUsizeOpt (after.take dot)).isSome then
          let pre := f.take dash
          match rfindSub pre idTagL with
          | none => none
          | some idPos => if idPos = 0 then none else some pre
        else none
  else none

/-- The spec's filename grammar (§4.2), as stated by the claim:
`<test-name>_ID_<digits>---<digits>.html` with `<test-name>` non-empty and
both digit runs non-empty base-10.  Encoded by enumerating the two split
points: `i` is the length of `<test-name>`, `j` the index of `---`. -/
def grammarMatch (f : List Char) : Bool :=
  (List.range (f.length + 1)).any fun i =>
    (List.range (f.length + 1)).any fun j =>
      decide (0 < i) && occursAtB idTagL f i &&
      decide (i + 5 ≤ j) && ((f.drop (i + 4)).take (j - (i + 4))).all Char.isDigit &&
      occursAtB dashesL f j &&
      decide (j + 9 ≤ f.length) &&
      ((f.drop (j + 3)).take (f.length - 5 - (j + 3))).all Char.isDigit &&
      decide (f.drop (f.length - 5) = htmlL)

/-- Declarative characterisation of what `is_test_log_file` accepts
(the amended filename condition): the filename ends in `.html`; splitting
at the last `---`, the text from there to the first following `.html`
parses as a `usize`; and the part before `---` — the returned key —
contains `_ID_` at some positive position. -/
def amendedKeySpec (f k : List Char) : Prop :=
  endsWithB f htmlL = true ∧
  ∃ idx rest,
    f = k ++ dashesL ++ idx ++ htmlL ++ rest ∧
    (∀ j, k.length < j → occursAtB dashesL f j = false) ∧
    (∀ j, j < idx.length → occursAtB htmlL (idx ++ htmlL ++ rest) j = false) ∧
    (parseUsizeOpt idx).isSome = true ∧
    ∃ q, 0 < q ∧ occursAtB idTagL k q = true

/-- Model of SQLite `LIKE` (ASCII case-insensitive; `%` matches any
sequence, `_` any single character; no escape clause is used by the
sources). -/
def likeMatch : List Char → List Char → Bool
  | [], [] => true
  | [], _ :: _ => false
  | '%' :: ps, t =>
    likeMatch ps t ||
      (match t with
       | [] => false
       | _ :: ts => likeMatch ('%' :: ps) ts)
  | '_' :: ps, t =>
    (match t with
     | [] => false
     | _ :: ts => likeMatch ps ts)
  | p :: ps, t =>
    (match t with
     | [] => false
     | c :: ts => (lowerC p = lowerC c) && likeMatch ps ts)
termination_by p t => (t.length, p.length)

/-- Byte-wise lexicographic comparison of TEXT values, the SQLite
BINARY collation used for `timestamp < ?`. -/
def ltL : List Char → List Char → Bool
  | [], [] => false
  | [], _ :: _ => true
  | _ :: _, [] => false
  | a :: as, b :: bs => if a = b then ltL as bs else decide (a < b)

/-- Model of Rust `eq_ignore_ascii_case`. -/
def eqIgnoreAsciiCase (a b : List Char) : Bool :=
  a.map lowerC = b.map lowerC

/-- Model of Rust `str::trim` (drop whitespace from both ends). -/
def isWsC (c : Char) : Bool := c.isWhitespace

def trimL (s : List Char) : List Char :=
  ((s.dropWhile isWsC).reverse.dropWhile isWsC).reverse

/-- The character set `['[', ']']` of `trim_matches` in the level
extraction. -/
def isBracketC (c : Char) : Bool := c = '[' || c = ']'

/-- Model of Rust `trim_matches(&['[', ']'])`: strip ALL leading and ALL
trailing characters drawn from `{'[', ']'}`. -/
def trimBrackets (s : List Char) : List Char :=
  ((s.dropWhile isBracketC).reverse.dropWhile isBracketC).reverse

/-- The level normalisation described by the claim for C6: trim, then
strip at most one leading `[` and at most one trailing `]`. -/
def stripOneBrackets (s : List Char) : List Char :=
  let s1 := match s with
    | '[' :: t => t
    | _ => s
  if s1.getLast? = some ']' then s1.dropLast else s1

def hash3 : List Char := strL "###"

/-- Body of the lazy group in `###(.+?)###`: the shortest non-empty
prefix of `t` that is followed by `###`; `.` does not cross a newline. -/
def regexBody (t : List Char) : Option (List Char) :=
  match firstHit (fun L => decide (0 < L) && occursAtB hash3 t L) (t.length + 1) with
  | none => none
  | some L => if (t.take L).all (fun c => c ≠ '\n') then some (t.take L) else none

/-- First match of the regex `###(.+?)###` (leftmost start, lazy body),
returning the captured group, as used by `bookmark_utils.rs` and
`ensure_auto_bookmarks_for_session`. -/
def regexCapture : List Char → Option (List Char)
  | [] => none
  | c :: rest =>
    if leadsL hash3 (c :: rest) then
      match regexBody (rest.drop 2) with
      | some b => some b
      | none => regexCapture rest
    else regexCapture rest

/-! ## Data model (log_parser.rs structs / database.rs schema) -/

/-- A stored `log_entries` row (`id` has been assigned by the database). -/
structure StoredEntry where
  id : Int
  session : List Char
  filePath : List Char
  fileIndex : Nat
  timestamp : List Char
  level : List Char
  stack : List Char
  message : List Char
  lineNumber : Nat
deriving DecidableEq, Repr

/-- `LogEntry` as produced by the parser (`id` optional, assigned on
insert). -/
structure LogEntry where
  id : Option Int
  test_session_id : List Char
  file_path : List Char
  file_index : Nat
  timestamp : List Char
  level : List Char
  stack : List Char
  message : List Char
  line_number : Nat
deriving DecidableEq, Repr

/-- A `test_sessions` row. -/
structure SessionRow where
  id : List Char
  name : List Char
  directory_path : List Char
  file_count : Nat
  total_entries : Nat
  source_type : List Char
deriving DecidableEq, Repr

/-- A `bookmarks` row. -/
structure BRow where
  id : Int
  log_entry_id : Int
  title : Option (List Char)
  notes : Option (List Char)
  color : Option (List Char)
deriving DecidableEq, Repr

/-- The SQLite database state: the three tables (row lists in rowid
order) plus the AUTOINCREMENT counters. -/
structure Store where
  sessions : List SessionRow
  entries : List StoredEntry
  bookmarks : List BRow
  nextEntryId : Int
  nextBookmarkId : Int
deriving DecidableEq, Repr

/-! ## Query predicate assembly (database.rs, shared by
`get_entries_paginated` and `get_entry_page`; the Rust duplicates this
block verbatim in both functions) -/

/-- `format!("[{}]", level)`. -/
def bracketed (l : List Char) : List Char := '[' :: (l ++ [']'])

/-- The level set after dropping empty strings and the legacy `"ALL"`. -/
def levelSetS (ls : List (List Char)) : List (List Char) :=
  ls.filter (fun l => !l.isEmpty && !(l == strL "ALL"))

/-- The WHERE conditions contributed by the level filter: an empty list
pushes the never-true `1 = 0`; a non-empty list pushes
`level IN (…) OR level IN ([…])` over the filtered set — unless that
filtered set is empty, in which case NO condition is pushed. -/
def levelConds (level_filter : Option (List (List Char))) :
    List (StoredEntry → Bool) :=
  match level_filter with
  | none => []
  | some ls =>
    if ls.isEmpty then [fun _ => false]
    else
      let fl := levelSetS ls
      if fl.isEmpty then []
      else [fun r => fl.any (fun l => r.level == l) || fl.any (fun l => r.level == bracketed l)]

/-- The WHERE condition contributed by the search term:
`timestamp LIKE '%s%' OR message LIKE '%s%'`. -/
def searchConds (search_term : Option (List Char)) : List (StoredEntry → Bool) :=
  match search_term with
  | none => []
  | some s =>
    [fun r => likeMatch ('%' :: (s ++ ['%'])) r.timestamp ||
              likeMatch ('%' :: (s ++ ['%'])) r.message]

def whereConds (level_filter : Option (List (List Char)))
    (search_term : Option (List Char)) : List (StoredEntry → Bool) :=
  levelConds level_filter ++ searchConds search_term

def rowMatches (conds : List (StoredEntry → Bool)) (r : StoredEntry) : Bool :=
  conds.all (fun c => c r)

/-! ## Stable insertion sort (model of `ORDER BY`; SQL sorting is stable
with respect to the underlying row order in this model) -/

def insertLe (le : α → α → Bool) (x : α) : List α → List α
  | [] => [x]
  | y :: ys => if le x y then x :: y :: ys else y :: insertLe le x ys

def isortBy (le : α → α → Bool) : List α → List α
  | [] => []
  | x :: xs => insertLe le x (isortBy le xs)

/-- `ORDER BY timestamp ASC, id ASC`. -/
def leTsId (a b : StoredEntry) : Bool :=
  ltL a.timestamp b.timestamp || (a.timestamp == b.timestamp && a.id ≤ b.id)

/-- `ORDER BY timestamp ASC` (no tiebreak in the SQL; stable model). -/
def leTs (a b : StoredEntry) : Bool :=
  ltL a.timestamp b.timestamp || a.timestamp == b.timestamp

/-! ## Reads (database.rs) -/

/-- Embedding of `DatabaseManager::get_entries_paginated`: returns
`(page, total)`. -/
def get_entries_paginated (db : List StoredEntry) (session_id : List Char)
    (offset limit : Nat) (level_filter : Option (List (List Char)))
    (search_term : Option (List Char)) : List StoredEntry × Nat :=
  let conds := whereConds level_filter search_term
  let matched := db.filter (fun r => r.session == session_id && rowMatches conds r)
  (((isortBy leTsId matched).drop offset).take limit, matched.length)

/-- Outcome of a database routine: `panicked` models a Rust panic
(here: `usize` division by zero), `noRows` the `QueryReturnedNoRows`
error, `ok` a normal return. -/
inductive DbOut (α : Type) where
  | panicked : DbOut α
  | noRows : DbOut α
  | ok : α → DbOut α
deriving DecidableEq, Repr

/-- `(timestamp < T) OR (timestamp = T AND id < E)`. -/
def beforeB (ts : List Char) (eid : Int) (r : StoredEntry) : Bool :=
  ltL r.timestamp ts || (r.timestamp == ts && r.id < eid)

/-- Embedding of `DatabaseManager::get_entry_page`: resolve the entry,
count the rows of its session that pass the same assembled filters and
sort before it, and return `count / items_per_page + 1` (the unguarded
`usize` division panics when `items_per_page = 0`). -/
def get_entry_page (db : List StoredEntry) (entry_id : Int)
    (items_per_page : Nat) (level_filter : Option (List (List Char)))
    (search_term : Option (List Char)) : DbOut (Option Nat) :=
  match db.find? (fun r => r.id == entry_id) with
  | none => .ok none
  | some e =>
    let conds := whereConds level_filter search_term
    let count_before := (db.filter (fun r =>
        r.session == e.session && rowMatches conds r &&
        beforeB e.timestamp e.id r)).length
    if items_per_page = 0 then .panicked
    else .ok (some (count_before / items_per_page + 1))

/-- Embedding of `DatabaseManager::find_entry_page_simple` (no filters;
errors with `QueryReturnedNoRows` when the entry is not in the given
session; unguarded `usize` division). -/
def find_entry_page_simple (db : List StoredEntry) (session_id : List Char)
    (entry_id : Int) (items_per_page : Nat) : DbOut Nat :=
  match db.find? (fun r => r.session == session_id && r.id == entry_id) with
  | none => .noRows
  | some e =>
    let count := (db.filter (fun r =>
        r.session == session_id && beforeB e.timestamp entry_id r)).length
    if items_per_page = 0 then .panicked
    else .ok (count / items_per_page + 1)

/-! ## Spec-side filter predicates (for claims C3/C7) -/

/-- The level predicate exactly as the claim words it: a row matches iff
its level is in S or is a bracketed member of S (false when S is empty). -/
def specLevelClaim (level_filter : Option (List (List Char))) (lvl : List Char) : Bool :=
  match level_filter with
  | none => true
  | some ls => (levelSetS ls).any (fun x => lvl == x || lvl == bracketed x)

/-- The amended level predicate: with `levels` present and empty nothing
matches; with S empty (e.g. `levels = {"ALL"}`) NO level condition is
applied and every row matches; otherwise membership in S or bracketed S. -/
def specLevelAmended (level_filter : Option (List (List Char))) (lvl : List Char) : Bool :=
  match level_filter with
  | none => true
  | some ls =>
    if ls.isEmpty then false
    else if (levelSetS ls).isEmpty then true
    else (levelSetS ls).any (fun x => lvl == x || lvl == bracketed x)

/-- The search predicate as the spec words it. -/
def specSearch (search_term : Option (List Char)) (r : StoredEntry) : Bool :=
  match search_term with
  | none => true
  | some s => likeMatch ('%' :: (s ++ ['%'])) r.timestamp ||
              likeMatch ('%' :: (s ++ ['%'])) r.message

/-! ## Bookmark synthesizer (database.rs `ensure_auto_bookmarks_for_session`) -/

def redColorL : List Char := strL "#F56C6C"
def cyanColorL : List Char := strL "#00CED1"
def failTitleL : List Char := strL "Failure"
def markerL : List Char := strL "MARKER"
def failPat : List Char := strL "%[FAIL]"
def stepPat : List Char := strL "%[STEP%"
def hashPat : List Char := strL "%###%"

/-- `get_bookmark_for_entry`: the first bookmark row joined to the entry. -/
def firstBmFor (st : Store) (eid : Int) : Option BRow :=
  st.bookmarks.find? (fun b => b.log_entry_id == eid)

/-- The correlated `SELECT COUNT(*) FROM bookmarks b WHERE b.log_entry_id = e.id`. -/
def countBm (st : Store) (eid : Int) : Nat :=
  (st.bookmarks.filter (fun b => b.log_entry_id == eid)).length

/-- `UPDATE bookmarks SET color = ?, title = ? WHERE id = ?`. -/
def update_bookmark_color_and_title (st : Store) (bid : Int)
    (color title : List Char) : Store :=
  { st with bookmarks := st.bookmarks.map (fun b =>
      if b.id == bid then { b with color := some color, title := some title } else b) }

/-- `add_bookmark`: INSERT with the next AUTOINCREMENT id. -/
def addBm (st : Store) (eid : Int) (title color : Option (List Char)) : Store :=
  { st with
    bookmarks := st.bookmarks ++
      [{ id := st.nextBookmarkId, log_entry_id := eid, title := title,
         notes := none, color := color }],
    nextBookmarkId := st.nextBookmarkId + 1 }

/-- The WHERE predicate of `query_failure_entries`:
`test_session_id = ? AND message LIKE '%[FAIL]'`. -/
def failPredB (sid : List Char) (e : StoredEntry) : Bool :=
  e.session == sid && likeMatch failPat e.message

/-- The WHERE predicate of the STEP query: MARKER level, `[STEP` in the
message, not ending in `[FAIL]`. -/
def stepPredB (sid : List Char) (e : StoredEntry) : Bool :=
  e.session == sid && e.level == markerL &&
  likeMatch stepPat e.message && !likeMatch failPat e.message

/-- The WHERE predicate of the priority-3/4 query: `###` in the message
or MARKER level, excluding `[FAIL]` and `[STEP` rows. -/
def p34PredB (sid : List Char) (e : StoredEntry) : Bool :=
  e.session == sid && (likeMatch hashPat e.message || e.level == markerL) &&
  !likeMatch failPat e.message && !likeMatch stepPat e.message

/-- Database integrity facts guaranteed by SQLite for the bookmarks
table: AUTOINCREMENT ids are unique and below the next id. -/
def BmWF (st : Store) : Prop :=
  (st.bookmarks.map (fun b => b.id)).Nodup ∧
  ∀ b ∈ st.bookmarks, b.id < st.nextBookmarkId

/-- `query_failure_entries`: ids of session entries whose message
matches `LIKE '%[FAIL]'`, ordered by timestamp. -/
def query_failure_entries (st : Store) (sid : List Char) : List Int :=
  (isortBy leTs (st.entries.filter (failPredB sid))).map (fun e => e.id)

/-- Priority-1 body: upgrade a non-red existing bookmark in place, or
create a red `Failure` bookmark. -/
def p1Step (st : Store) (eid : Int) : Store :=
  match firstBmFor st eid with
  | some b =>
    if b.color ≠ some redColorL then
      update_bookmark_color_and_title st b.id redColorL failTitleL
    else st
  | none => addBm st eid (some failTitleL) (some redColorL)

def phase1 (sid : List Char) (st : Store) : Store :=
  (query_failure_entries st sid).foldl p1Step st

/-- The priority-2 query rows: `(id, message, has_bookmark)` for MARKER
entries containing `[STEP` and not ending in `[FAIL]`. -/
def stepRows (st : Store) (sid : List Char) : List (Int × List Char × Nat) :=
  (isortBy leTs (st.entries.filter (stepPredB sid))).map
    (fun e => (e.id, e.message, countBm st e.id))

def p2Step (st : Store) (it : Int × List Char × Nat) : Store :=
  if 0 < it.2.2 then
    match firstBmFor st it.1 with
    | some b =>
      if b.color ≠ some cyanColorL then
        update_bookmark_color_and_title st b.id cyanColorL it.2.1
      else st
    | none => st
  else addBm st it.1 (some it.2.1) (some cyanColorL)

def phase2 (sid : List Char) (st : Store) : Store :=
  (stepRows st sid).foldl p2Step st

/-- Title resolution shared by priorities 3 and 4 and by
`bookmark_utils::find_auto_bookmark_markers` (the two sources compute
the same function): the first `###(.+?)###` capture trimmed if
non-empty, else the full message for MARKER-level entries. -/
def p34Title (message level : List Char) : Option (List Char) :=
  match regexCapture message with
  | some c =>
    let t := trimL c
    if t.isEmpty then (if level == markerL then some message else none)
    else some t
  | none => if level == markerL then some message else none

/-- The priority-3/4 query rows: `(id, message, level, has_bookmark)`
for entries containing `###` or at MARKER level, excluding `[FAIL]` and
`[STEP` rows. -/
def p34Rows (st : Store) (sid : List Char) : List (Int × List Char × List Char × Nat) :=
  (isortBy leTs (st.entries.filter (p34PredB sid))).map
    (fun e => (e.id, e.message, e.level, countBm st e.id))

def p34Step (st : Store) (it : Int × List Char × List Char × Nat) : Store :=
  if 0 < it.2.2.2 then st
  else
    match p34Title it.2.1 it.2.2.1 with
    | some t => addBm st it.1 (some t) none
    | none => st

def phase34 (sid : List Char) (st : Store) : Store :=
  (p34Rows st sid).foldl p34Step st

/-- Embedding of `ensure_auto_bookmarks_for_session` (its
`created_bookmarks` return value is dropped; only the database effect is
modelled). -/
def ensure_auto_bookmarks_for_session (sid : List Char) (st : Store) : Store :=
  phase34 sid (phase2 sid (phase1 sid st))

/-! ## Session replacement and insertion (database.rs) -/

/-- `delete_session`: bookmarks of the session's entries, then the
entries, then the session row, in one transaction. -/
def delete_session (st : Store) (sid : List Char) : Store :=
  let eids := (st.entries.filter (fun e => e.session == sid)).map (fun e => e.id)
  { st with
    bookmarks := st.bookmarks.filter (fun b => !eids.contains b.log_entry_id),
    entries := st.entries.filter (fun e => !(e.session == sid)),
    sessions := st.sessions.filter (fun s => !(s.id == sid)) }

/-- `delete_session_by_name_and_path`: look up (at most) one session row
with the given name and directory path, delete it, and return its id. -/
def delete_session_by_name_and_path (st : Store) (name path : List Char) :
    Store × Option (List Char) :=
  match st.sessions.find? (fun s => s.name == name && s.directory_path == path) with
  | none => (st, none)
  | some s => (delete_session st s.id, some s.id)

def create_test_session (st : Store) (s : SessionRow) : Store :=
  { st with sessions := st.sessions ++ [s] }

def toStored (eid : Int) (e : LogEntry) : StoredEntry :=
  { id := eid, session := e.test_session_id, filePath := e.file_path,
    fileIndex := e.file_index, timestamp := e.timestamp, level := e.level,
    stack := e.stack, message := e.message, lineNumber := e.line_number }

/-- `insert_entries`: one transaction, ids assigned in input order;
returns the assigned ids in input order. -/
def insert_entries : Store → List LogEntry → Store × List Int
  | st, [] => (st, [])
  | st, e :: es =>
    let st1 := { st with entries := st.entries ++ [toStored st.nextEntryId e],
                         nextEntryId := st.nextEntryId + 1 }
    let out := insert_entries st1 es
    (out.1, st.nextEntryId :: out.2)

/-- The coordinator's id back-assignment loop after `insert_entries`. -/
def assignIds (entries : List LogEntry) (ids : List Int) : List LogEntry :=
  (List.zipWith (fun e i => { e with id := some i }) entries ids) ++
    entries.drop ids.length

/-- Embedding of `bookmark_utils::find_auto_bookmark_markers`. -/
def find_auto_bookmark_markers (entries : List LogEntry) : List (Int × List Char) :=
  entries.filterMap (fun e =>
    match e.id with
    | none => none
    | some i => (p34Title e.message e.level).map (fun t => (i, t)))

/-! ## Chunked fetcher strategy (http_async/async_fetcher.rs) -/

def chunkSizeC : Nat := 5 * 1024 * 1024
def chunkedThresholdC : Nat := 10 * 1024 * 1024

/-- Range support as read from the `Accept-Ranges` header. -/
def acceptsRanges (hdr : Option (List Char)) : Bool :=
  (hdr.map (fun v => eqIgnoreAsciiCase v (strL "bytes"))).getD false

/-- `fetch_file_once`'s strategy choice. -/
def useChunked (contentLength : Nat) (supportsRange : Bool) : Bool :=
  decide (chunkedThresholdC ≤ contentLength) && supportsRange

/-- `(content_length + CHUNK_SIZE - 1) / CHUNK_SIZE`. -/
def totalChunksC (contentLength : Nat) : Nat :=
  (contentLength + chunkSizeC - 1) / chunkSizeC

/-- The requested byte range of chunk `i` (inclusive bounds):
`start = i·CHUNK_SIZE`, `end = min(start + CHUNK_SIZE - 1, content_length - 1)`. -/
def chunkRange (contentLength i : Nat) : Nat × Nat :=
  (i * chunkSizeC, min (i * chunkSizeC + chunkSizeC - 1) (contentLength - 1))

/-- An ideal range server: `bytes=a-b` returns exactly bytes `[a, b]`. -/
def rangeSlice (bytes : List Nat) (a b : Nat) : List Nat :=
  (bytes.drop a).take (b + 1 - a)

/-- `fetch_file_chunked_parallel`'s reassembly on full success: the
chunks concatenated in ascending chunk-index order. -/
def mergedChunks (bytes : List Nat) (contentLength : Nat) : List Nat :=
  (List.range (totalChunksC contentLength)).flatMap (fun i =>
    rangeSlice bytes (chunkRange contentLength i).1 (chunkRange contentLength i).2)

/-! ## Session coordinator (http_async/download_coordinator.rs) -/

/-- `url.rsplit('/').next()`: the part after the last `/`. -/
def fileNameOf (u : List Char) : List Char :=
  (u.reverse.takeWhile (fun c => c ≠ '/')).reverse

def keyOf (u : List Char) : Option (List Char) :=
  is_test_log_file (fileNameOf u)

/-- `HttpLogFetcher::filter_test_log_files`. -/
def filter_test_log_files (urls : List (List Char)) : List (List Char) :=
  urls.filter (fun u => (keyOf u).isSome)

/-- `iter().enumerate()` with our `(value, index)` pair order. -/
def withIdx {α : Type} : Nat → List α → List (α × Nat)
  | _, [] => []
  | i, a :: as => (a, i) :: withIdx (i + 1) as

/-- The session group built by `download_sessions` for one key: the
`(url, index)` pairs pushed while enumerating the filtered listing. -/
def groupFiles (test_log_urls : List (List Char)) (key : List Char) :
    List (List Char × Nat) :=
  (withIdx 0 test_log_urls).filter (fun p => keyOf p.1 == some key)

/-- The per-file download outcomes in task (= group) order; the network
is abstracted as a deterministic `fetch` outcome per URL. -/
def downloadResults (fetch : List Char → Except Unit (List Char))
    (files : List (List Char × Nat)) :
    List (Except Unit (List Char × List Char × Nat)) :=
  files.map (fun p => (fetch p.1).map (fun c => (p.1, c, p.2)))

/-- `sort_by_key(|(_, _, index)| *index)`. -/
def leIdx (a b : List Char × List Char × Nat) : Bool := a.2.2 ≤ b.2.2

def okValues {ε α : Type} (l : List (Except ε α)) : List α :=
  l.filterMap (fun r => r.toOption)

def anyErr {ε α : Type} (l : List (Except ε α)) : Bool :=
  l.any (fun r => !r.toOption.isSome)

/-- The download-and-parse front of `download_single_session`: fail if
any file download failed; otherwise sort the downloaded contents by
their original index, parse each (abstract `parse`), fail if any parse
failed, and return the concatenated entries. -/
def sessionEntriesE (fetch : List Char → Except Unit (List Char))
    (parse : List Char → List Char → List Char → Nat → Except Unit (List LogEntry))
    (session_id : List Char) (files : List (List Char × Nat)) :
    Except Unit (List LogEntry) :=
  if anyErr (downloadResults fetch files) then .error ()
  else if anyErr ((isortBy leIdx (okValues (downloadResults fetch files))).map
      (fun t => parse t.2.1 t.1 session_id t.2.2)) then .error ()
  else .ok ((okValues ((isortBy leIdx (okValues (downloadResults fetch files))).map
      (fun t => parse t.2.1 t.1 session_id t.2.2))).flatten)

/-- Embedding of `download_single_session`'s effect on the database:
on any download or parse failure return the error with the store
untouched; otherwise delete the previous `(name, directory_path)`
session, and — unless the parsed entry list is empty, in which case
return success immediately — insert the new session row, bulk-insert the
entries, and add the auto-bookmarks.  The freshly generated session id
is passed in as `session_id` (in the source it is built from the session
name and a nanosecond timestamp). -/
def download_single_session (fetch : List Char → Except Unit (List Char))
    (parse : List Char → List Char → List Char → Nat → Except Unit (List LogEntry))
    (session_name url session_id : List Char)
    (log_files : List (List Char × Nat)) (store : Store) :
    Except Unit (List Char) × Store :=
  match sessionEntriesE fetch parse session_id log_files with
  | .error _ => (.error (), store)
  | .ok all_entries =>
    let store1 := (delete_session_by_name_and_path store session_name url).1
    if all_entries.isEmpty then (.ok session_id, store1)
    else
      let session : SessionRow :=
        { id := session_id, name := session_name, directory_path := url,
          file_count := log_files.length, total_entries := all_entries.length,
          source_type := strL "http" }
      let store2 := create_test_session store1 session
      let out := insert_entries store2 all_entries
      let entries_with_ids := assignIds all_entries out.2
      let store4 := (find_auto_bookmark_markers entries_with_ids).foldl
        (fun st m => addBm st m.1 (some m.2) none) out.1
      (.ok session_id, store4)

/-- The trailing `<digits>` file index of the spec's filename grammar
(the digits between the last `---` and the following `.html`). -/
def trailingIndexOf (f : List Char) : Option Nat :=
  match rfindSub f dashesL with
  | none => none
  | some dash =>
    match findSub (f.drop (dash + 3)) htmlL with
    | none => none
    | some dot => parseUsizeOpt ((f.drop (dash + 3)).take dot)

/-! ## HTML log parser (log_parser.rs `parse_html_string`) -/

/-- One `<tr>` as seen through the parser's selectors: whether the row
contains a `<th>`, and the text of the first `td.date`, `td.level`,
`td.message` and `td.stack[hidden]` cells (the selectors are fixed valid
CSS, so the Rust fallback branches for failed selector parsing are
unreachable and not modelled). -/
structure HtmlRow where
  hasTh : Bool
  dateText : Option (List Char)
  levelText : Option (List Char)
  messageText : Option (List Char)
  stackHiddenText : Option (List Char)
deriving DecidableEq, Repr

def tsHeaderL : List Char := strL "Timestamp"

def rowTimestamp (r : HtmlRow) : List Char := (r.dateText.map trimL).getD []

/-- A data row is emitted iff it carries no `<th>` and its timestamp is
neither empty nor the literal `Timestamp`. -/
def rowEmittedB (r : HtmlRow) : Bool :=
  !r.hasTh && !(rowTimestamp r).isEmpty && !(rowTimestamp r == tsHeaderL)

def parseRowsAux (test_session_id file_url : List Char) (file_index : Nat) :
    List HtmlRow → Nat → List LogEntry
  | [], _ => []
  | r :: rs, ln =>
    if r.hasTh then parseRowsAux test_session_id file_url file_index rs (ln + 1)
    else
      let ts := rowTimestamp r
      if ts.isEmpty || ts == tsHeaderL then
        parseRowsAux test_session_id file_url file_index rs (ln + 1)
      else
        { id := none, test_session_id := test_session_id, file_path := file_url,
          file_index := file_index, timestamp := ts,
          level := (r.levelText.map (fun s => trimBrackets (trimL s))).getD [],
          stack := (r.stackHiddenText.map trimL).getD [],
          message := (r.messageText.map trimL).getD [],
          line_number := ln } ::
          parseRowsAux test_session_id file_url file_index rs (ln + 1)

/-- Embedding of `parse_html_string` over the selected rows. -/
def parse_html_string (rows : List HtmlRow) (file_url test_session_id : List Char)
    (file_index : Nat) : List LogEntry :=
  parseRowsAux test_session_id file_url file_index rows 0

/-! ## Concrete inputs used by counterexamples and witnesses -/

/-- A data row whose level cell reads `[[INFO]]`. -/
def rowBrackets : HtmlRow :=
  { hasTh := false, dateText := some (strL "2024-01-01 12:00:00"),
    levelText := some (strL "[[INFO]]"), messageText := some (strL "msg"),
    stackHiddenText := none }

/-- A stored INFO row of session `s`. -/
def entryInfo : StoredEntry :=
  { id := 1, session := strL "s", filePath := strL "f", fileIndex := 0,
    timestamp := strL "2024-01-01", level := strL "INFO", stack := [],
    message := strL "hello", lineNumber := 0 }

def entryT2 : StoredEntry :=
  { entryInfo with id := 2, timestamp := strL "2024-01-02", level := strL "[INFO]" }

def entryT3 : StoredEntry :=
  { entryInfo with id := 3, timestamp := strL "2024-01-03", level := strL "WARN" }

/-- A three-row session used by the pagination witnesses. -/
def dbW : List StoredEntry := [entryInfo, entryT2, entryT3]

/-- A network that always fails. -/
def fetchFailW : List Char → Except Unit (List Char) := fun _ => .error ()

/-- A network that always returns an empty document. -/
def fetchEmptyW : List Char → Except Unit (List Char) := fun _ => .ok []

/-- A parser that always succeeds with no entries. -/
def parseEmptyW : List Char → List Char → List Char → Nat → Except Unit (List LogEntry) :=
  fun _ _ _ _ => .ok []

/-- A parser that always fails. -/
def parseFailW : List Char → List Char → List Char → Nat → Except Unit (List LogEntry) :=
  fun _ _ _ _ => .error ()

def sessionOldW : SessionRow :=
  { id := strL "old", name := strL "T_ID_1", directory_path := strL "http://h/logs/",
    file_count := 1, total_entries := 1, source_type := strL "http" }

def entryOldW : StoredEntry := { entryInfo with session := strL "old" }

def bmOldW : BRow :=
  { id := 1, log_entry_id := 1, title := none, notes := none, color := none }

/-- A store holding one previously ingested session with an entry and a
bookmark. -/
def storeW : Store :=
  { sessions := [sessionOldW], entries := [entryOldW], bookmarks := [bmOldW],
    nextEntryId := 2, nextBookmarkId := 2 }

/-- A directory listing that lists the two files of a session with the
higher trailing index first. -/
def urlsW : List (List Char) :=
  [strL "http://h/T_ID_1---1.html", strL "http://h/T_ID_1---0.html"]

/-- An entry whose message carries the failure anchor. -/
def entryFailW : StoredEntry :=
  { entryInfo with id := 10, message := strL "assertion xyz [FAIL]" }

/-- A pre-existing user bookmark (no colour) on that entry. -/
def bmNoteW : BRow :=
  { id := 7, log_entry_id := 10, title := some (strL "note"), notes := none,
    color := none }

def stFailW : Store :=
  { sessions := [], entries := [entryFailW], bookmarks := [bmNoteW],
    nextEntryId := 11, nextBookmarkId := 8 }

/-! # Theorems

General-purpose helper lemmas first, then the per-claim results. -/

/-- A fold leaves any projection unchanged when every step does. -/
theorem foldl_pres {α β γ : Type} (g : α → γ) (f : α → β → α)
    (h : ∀ s x, g (f s x) = g s) :
    ∀ (l : List β) (s : α), g (l.foldl f s) = g s := by
  intro l
  induction l with
  | nil => intro s; rfl
  | cons x xs ih => intro s; rw [List.foldl_cons, ih, h]

/-- A fold is the identity when every step fixes the initial state. -/
theorem foldl_fixed {α β : Type} (f : α → β → α) (s : α)
    (l : List β) (h : ∀ x ∈ l, f s x = s) : l.foldl f s = s := by
  induction l with
  | nil => rfl
  | cons x xs ih =>
    rw [List.foldl_cons, h x (List.mem_cons_self x xs)]
    exact ih (fun y hy => h y (List.mem_cons_of_mem x hy))

theorem insertLe_perm {α : Type} (le : α → α → Bool) (x : α) :
    ∀ l : List α, (insertLe le x l).Perm (x :: l) := by
  intro l
  induction l with
  | nil => simp [insertLe]
  | cons y ys ih =>
    by_cases h : le x y = true
    · simp [insertLe, h]
    · simp only [insertLe, h]
      exact ((ih.cons y).trans (List.Perm.swap x y ys)).symm.symm

theorem isortBy_perm {α : Type} (le : α → α → Bool) :
    ∀ l : List α, (isortBy le l).Perm l := by
  intro l
  induction l with
  | nil => simp [isortBy]
  | cons x xs ih =>
    exact (insertLe_perm le x (isortBy le xs)).trans (ih.cons x)

/-- Members of the insertion-sorted list are members of the original. -/
theorem mem_isortBy {α : Type} {le : α → α → Bool} {l : List α} {a : α} :
    a ∈ isortBy le l ↔ a ∈ l :=
  (isortBy_perm le l).mem_iff

/-! ## Characterisation of the substring searches (for claim C5) -/

theorem leadsL_iff {p s : List Char} : leadsL p s = true ↔ ∃ t, s = p ++ t := by
  induction p generalizing s with
  | nil => simp [leadsL]
  | cons a as ih =>
    cases s with
    | nil => simp [leadsL]
    | cons b bs =>
      simp only [leadsL, Bool.and_eq_true, decide_eq_true_eq, ih, List.cons_append]
      constructor
      · rintro ⟨rfl, t, rfl⟩; exact ⟨t, rfl⟩
      · rintro ⟨t, h⟩
        injection h with h1 h2
        exact ⟨h1.symm, t, h2⟩

theorem leadsL_append (p t : List Char) : leadsL p (p ++ t) = true :=
  leadsL_iff.mpr ⟨t, rfl⟩

theorem firstHit_none_forall {q : Nat → Bool} :
    ∀ {n : Nat}, firstHit q n = none → ∀ j < n, q j = false := by
  intro n
  induction n with
  | zero => intro _ j hj; omega
  | succ n ih =>
    simp only [firstHit]
    cases h : firstHit q n with
    | some i => intro hc; cases hc
    | none =>
      by_cases hq : q n = true
      · simp only [hq, if_true]; intro hc; cases hc
      · simp only [Bool.not_eq_true] at hq
        simp only [hq, Bool.false_eq_true, if_false]
        intro _ j hj
        rcases Nat.lt_succ_iff_lt_or_eq.mp hj with h1 | h1
        · exact ih h j h1
        · rw [h1]; exact hq

theorem firstHit_eq_some_iff {q : Nat → Bool} :
    ∀ {n i : Nat}, firstHit q n = some i ↔
      (i < n ∧ q i = true ∧ ∀ j < i, q j = false) := by
  intro n
  induction n with
  | zero => simp [firstHit]
  | succ n ih =>
    intro i
    simp only [firstHit]
    cases h : firstHit q n with
    | some j =>
      have hj := ih.mp h
      constructor
      · rintro ⟨rfl⟩
        exact ⟨Nat.lt_succ_of_lt hj.1, hj.2.1, hj.2.2⟩
      · rintro ⟨hi, hqi, hmin⟩
        have : j = i := by
          rcases Nat.lt_trichotomy j i with hlt | heq | hgt
          · have := hmin j hlt
            rw [hj.2.1] at this; cases this
          · exact heq
          · have := hj.2.2 i hgt
            rw [hqi] at this; cases this
        rw [this]
    | none =>
      have hn := firstHit_none_forall h
      by_cases hq : q n = true
      · simp only [hq, if_true]
        constructor
        · rintro ⟨rfl⟩
          refine ⟨Nat.lt_succ_self n, hq, fun j hj => ?_⟩
          by_contra hc
          exact absurd (hn j) (by simp [hj, Bool.eq_true_of_not_eq_false hc])
        · rintro ⟨hi, hqi, hmin⟩
          have : i = n := by
            rcases Nat.lt_trichotomy i n with hlt | heq | hgt
            · exact absurd (hn i) (by simp [hlt, hqi])
            · exact heq
            · omega
          rw [this]
      · simp only [Bool.not_eq_true] at hq
        simp only [hq, Bool.false_eq_true, if_false]
        constructor
        · rintro ⟨⟩
        · rintro ⟨hi, hqi, hmin⟩
          rcases Nat.lt_trichotomy i n with hlt | heq | hgt
          · exact absurd (hn i) (by simp [hlt, hqi])
          · rw [heq] at hqi; rw [hqi] at hq; cases hq
          · omega

theorem firstHit_eq_none_iff {q : Nat → Bool} :
    ∀ {n : Nat}, firstHit q n = none ↔ ∀ j < n, q j = false := by
  intro n
  induction n with
  | zero => simp [firstHit]
  | succ n ih =>
    simp only [firstHit]
    cases h : firstHit q n with
    | some i =>
      have hi := firstHit_eq_some_iff.mp h
      simp only [reduceCtorEq, false_iff]
      push_neg
      exact ⟨i, Nat.lt_succ_of_lt hi.1, by simp [hi.2.1]⟩
    | none =>
      have hn := ih.mp h
      by_cases hq : q n = true
      · simp only [hq, if_true, reduceCtorEq, false_iff]
        push_neg
        exact ⟨n, Nat.lt_succ_self n, by simp [hq]⟩
      · simp only [Bool.not_eq_true] at hq
        simp only [hq, Bool.false_eq_true, if_false, true_iff]
        intro j hj
        rcases Nat.lt_succ_iff_lt_or_eq.mp hj with h1 | h1
        · exact hn j h1
        · rw [h1]; exact hq

theorem lastHit_eq_some_iff {q : Nat → Bool} :
    ∀ {n i : Nat}, lastHit q n = some i ↔
      (i < n ∧ q i = true ∧ ∀ j, i < j → j < n → q j = false) := by
  intro n
  induction n with
  | zero => simp [lastHit]
  | succ n ih =>
    intro i
    simp only [lastHit]
    by_cases hq : q n = true
    · simp only [hq, if_true]
      constructor
      · rintro ⟨rfl⟩
        exact ⟨Nat.lt_succ_self n, hq, fun j h1 h2 => by omega⟩
      · rintro ⟨hi, hqi, hmax⟩
        rcases Nat.lt_trichotomy i n with hlt | heq | hgt
        · have := hmax n hlt (Nat.lt_succ_self n)
          rw [hq] at this; cases this
        · rw [heq]
        · omega
    · simp only [Bool.not_eq_true] at hq
      simp only [hq, Bool.false_eq_true, if_false, ih]
      constructor
      · rintro ⟨hi, hqi, hmax⟩
        refine ⟨Nat.lt_succ_of_lt hi, hqi, fun j h1 h2 => ?_⟩
        rcases Nat.lt_succ_iff_lt_or_eq.mp h2 with h3 | h3
        · exact hmax j h1 h3
        · rw [h3]; exact hq
      · rintro ⟨hi, hqi, hmax⟩
        have hin : i < n := by
          rcases Nat.lt_trichotomy i n with hlt | heq | hgt
          · exact hlt
          · rw [heq] at hqi; rw [hqi] at hq; cases hq
          · omega
        exact ⟨hin, hqi, fun j h1 h2 => hmax j h1 (Nat.lt_succ_of_lt h2)⟩

theorem lastHit_eq_none_iff {q : Nat → Bool} :
    ∀ {n : Nat}, lastHit q n = none ↔ ∀ j < n, q j = false := by
  intro n
  induction n with
  | zero => simp [lastHit]
  | succ n ih =>
    simp only [lastHit]
    by_cases hq : q n = true
    · simp only [hq, if_true, reduceCtorEq, false_iff]
      push_neg
      exact ⟨n, Nat.lt_succ_self n, by simp [hq]⟩
    · simp only [Bool.not_eq_true] at hq
      simp only [hq, Bool.false_eq_true, if_false, ih]
      constructor
      · intro h j hj
        rcases Nat.lt_succ_iff_lt_or_eq.mp hj with h1 | h1
        · exact h j h1
        · rw [h1]; exact hq
      · intro h j hj
        exact h j (Nat.lt_succ_of_lt hj)

theorem occursAt_lt_length {p s : List Char} {j : Nat} (hp : p ≠ [])
    (h : occursAtB p s j = true) : j < s.length := by
  rcases leadsL_iff.mp h with ⟨t, ht⟩
  have hlen : (s.drop j).length = p.length + t.length := by rw [ht]; simp
  rw [List.length_drop] at hlen
  have hppos : 0 < p.length := List.length_pos.mpr hp
  omega

theorem findSub_eq_some_iff {s p : List Char} {i : Nat} (hp : p ≠ []) :
    findSub s p = some i ↔
      (occursAtB p s i = true ∧ ∀ j < i, occursAtB p s j = false) := by
  rw [findSub, firstHit_eq_some_iff]
  constructor
  · rintro ⟨_, h2, h3⟩; exact ⟨h2, h3⟩
  · rintro ⟨h2, h3⟩
    exact ⟨Nat.lt_succ_of_lt (occursAt_lt_length hp h2), h2, h3⟩

theorem findSub_eq_none_iff {s p : List Char} (hp : p ≠ []) :
    findSub s p = none ↔ ∀ j, occursAtB p s j = false := by
  rw [findSub, firstHit_eq_none_iff]
  constructor
  · intro h j
    by_cases hj : j < s.length + 1
    · exact h j hj
    · by_contra hc
      have := occursAt_lt_length hp (Bool.eq_true_of_not_eq_false hc)
      omega
  · intro h j _; exact h j

theorem rfindSub_eq_some_iff {s p : List Char} {i : Nat} (hp : p ≠ []) :
    rfindSub s p = some i ↔
      (occursAtB p s i = true ∧ ∀ j, i < j → occursAtB p s j = false) := by
  rw [rfindSub, lastHit_eq_some_iff]
  constructor
  · rintro ⟨_, h2, h3⟩
    refine ⟨h2, fun j hj => ?_⟩
    by_cases hjl : j < s.length + 1
    · exact h3 j hj hjl
    · by_contra hc
      have := occursAt_lt_length hp (Bool.eq_true_of_not_eq_false hc)
      omega
  · rintro ⟨h2, h3⟩
    exact ⟨Nat.lt_succ_of_lt (occursAt_lt_length hp h2), h2,
      fun j hj _ => h3 j hj⟩

theorem rfindSub_eq_none_iff {s p : List Char} (hp : p ≠ []) :
    rfindSub s p = none ↔ ∀ j, occursAtB p s j = false := by
  rw [rfindSub, lastHit_eq_none_iff]
  constructor
  · intro h j
    by_cases hj : j < s.length + 1
    · exact h j hj
    · by_contra hc
      have := occursAt_lt_length hp (Bool.eq_true_of_not_eq_false hc)
      omega
  · intro h j _; exact h j

theorem drop_append_right (a b : List Char) (m : Nat) :
    (a ++ b).drop (a.length + m) = b.drop m := by
  rw [← List.drop_drop, List.drop_left]

theorem occursAt_here (a p t : List Char) :
    occursAtB p (a ++ (p ++ t)) a.length = true := by
  unfold occursAtB
  rw [List.drop_left]
  exact leadsL_append p t

/-- The code's acceptance condition is exactly the declarative
`amendedKeySpec`. -/
theorem is_test_log_file_eq_some_iff {f k : List Char} :
    is_test_log_file f = some k ↔ amendedKeySpec f k := by
  have hd3 : dashesL ≠ [] := by decide
  have hh5 : htmlL ≠ [] := by decide
  have hid4 : idTagL ≠ [] := by decide
  constructor
  · intro h
    unfold is_test_log_file at h
    split at h
    case isFalse hew => cases h
    case isTrue hew =>
      cases hrf : rfindSub f dashesL with
      | none => rw [hrf] at h; cases h
      | some dash =>
        rw [hrf] at h
        dsimp only at h
        cases hfs : findSub (f.drop (dash + 3)) htmlL with
        | none => rw [hfs] at h; cases h
        | some dot =>
          rw [hfs] at h
          dsimp only at h
          split at h
          case isFalse => cases h
          case isTrue hparse =>
            cases hid : rfindSub (f.take dash) idTagL with
            | none => rw [hid] at h; cases h
            | some idPos =>
              rw [hid] at h
              dsimp only at h
              split at h
              case isTrue => cases h
              case isFalse hidpos =>
                injection h with hk
                subst hk
                -- facts from the searches
                have hrf' := (rfindSub_eq_some_iff hd3).mp hrf
                have hfs' := (findSub_eq_some_iff hh5).mp hfs
                have hid' := (rfindSub_eq_some_iff hid4).mp hid
                have hdlt : dash < f.length := occursAt_lt_length hd3 hrf'.1
                -- decompose f at the last `---`
                rcases leadsL_iff.mp hrf'.1 with ⟨t, ht⟩
                have hdrop3 : f.drop (dash + 3) = t := by
                  have : f.drop (dash + 3) = (f.drop dash).drop 3 := by
                    rw [List.drop_drop]
                  rw [this, ht]
                  have : (3 : Nat) = dashesL.length := by decide
                  rw [this, List.drop_left]
                have hdotlt : dot < t.length := by
                  have := occursAt_lt_length hh5 hfs'.1
                  rwa [hdrop3] at this
                rcases leadsL_iff.mp hfs'.1 with ⟨rest, hrest⟩
                rw [hdrop3] at hrest
                -- t = idx ++ htmlL ++ rest with idx := t.take dot
                have htdecomp : t = t.take dot ++ (htmlL ++ rest) := by
                  conv_lhs => rw [← List.take_append_drop dot t]
                  rw [hrest]
                have hklen : (f.take dash).length = dash := by
                  rw [List.length_take]
                  omega
                have htklen : (t.take dot).length = dot := by
                  rw [List.length_take]
                  omega
                have hfdecomp : f = f.take dash ++ dashesL ++ t.take dot ++ htmlL ++ rest := by
                  conv_lhs => rw [← List.take_append_drop dash f, ht, htdecomp]
                  simp [List.append_assoc]
                refine ⟨hew, t.take dot, rest, hfdecomp, ?_, ?_, ?_, idPos, ?_, hid'.1⟩
                · intro j hj
                  exact hrf'.2 j (by omega)
                · intro j hj
                  rw [htklen] at hj
                  have := hfs'.2 j hj
                  rw [hdrop3, htdecomp] at this
                  rwa [← List.append_assoc] at this
                · have : (f.drop (dash + 3)).take dot = t.take dot := by rw [hdrop3]
                  rwa [this] at hparse
                · omega
  · rintro ⟨hew, idx, rest, hfeq, hmax, hmin, hparse, q, hqpos, hocc⟩
    have hktl : f.take k.length = k := by rw [hfeq]; simp [List.take_left]
    have hrf : rfindSub f dashesL = some k.length := by
      rw [rfindSub_eq_some_iff hd3]
      refine ⟨?_, hmax⟩
      rw [hfeq]
      have : k ++ dashesL ++ idx ++ htmlL ++ rest =
          k ++ (dashesL ++ (idx ++ (htmlL ++ rest))) := by
        simp [List.append_assoc]
      rw [this]
      exact occursAt_here k dashesL (idx ++ (htmlL ++ rest))
    have hafter : f.drop (k.length + 3) = idx ++ (htmlL ++ rest) := by
      rw [hfeq]
      have h1 : k ++ dashesL ++ idx ++ htmlL ++ rest =
          (k ++ dashesL) ++ (idx ++ (htmlL ++ rest)) := by
        simp [List.append_assoc]
      have h2 : k.length + 3 = (k ++ dashesL).length + 0 := by
        simp [dashesL, strL]
      rw [h1, h2, drop_append_right, List.drop_zero]
    have hfs : findSub (f.drop (k.length + 3)) htmlL = some idx.length := by
      rw [findSub_eq_some_iff hh5]
      constructor
      · rw [hafter]
        exact occursAt_here idx htmlL rest
      · intro j hj
        have := hmin j hj
        rw [hafter]
        rwa [← List.append_assoc]
    have hparse' : (parseUsizeOpt ((f.drop (k.length + 3)).take idx.length)).isSome = true := by
      rw [hafter, List.take_left]
      exact hparse
    have hid : ∃ p, rfindSub (f.take k.length) idTagL = some p ∧ 0 < p := by
      cases hrid : rfindSub (f.take k.length) idTagL with
      | none =>
        exfalso
        have := (rfindSub_eq_none_iff hid4).mp hrid q
        rw [hktl] at this
        rw [hocc] at this
        cases this
      | some p =>
        refine ⟨p, rfl, ?_⟩
        have hp := (rfindSub_eq_some_iff hid4).mp hrid
        by_contra hc
        have hp0 : p = 0 := by omega
        have := hp.2 q (by omega)
        rw [hktl] at this
        rw [hocc] at this
        cases this
    rcases hid with ⟨p, hrid, hppos⟩
    unfold is_test_log_file
    rw [if_pos hew, hrf]
    dsimp only
    rw [hfs]
    dsimp only
    rw [if_pos hparse', hrid]
    dsimp only
    rw [if_neg (by omega), hktl]

/-- C5 (counterexample): the claim says `is_test_log_file` returns `Some`
exactly on filenames matching `<test-name>_ID_<digits>---<digits>.html`.
The filename `Test_ID_x---0.html` has no digits after `_ID_`, so the
grammar rejects it, yet the code accepts it (it never checks those
digits): the claimed equivalence is false at this input. -/
theorem c5_counterexample :
    (is_test_log_file (strL "Test_ID_x---0.html")).isSome = true ∧
    grammarMatch (strL "Test_ID_x---0.html") = false := by
  exact ⟨by decide, by decide⟩

/-- C5 (amended): for every filename, `is_test_log_file` returns
`some key` iff the filename ends in `.html`, the text between the LAST
`---` and the first `.html` after it parses as a `usize` (so digits,
optionally preceded by `+`, below `2^64`), and the part before that
`---` contains `_ID_` starting at some positive position; the returned
session key is then that whole prefix before the last `---` (not
necessarily ending at `_ID_<digits>`, and with no constraint that the
`_ID_` tag is followed by digits). -/
theorem c5_amended : ∀ f k : List Char,
    is_test_log_file f = some k ↔ amendedKeySpec f k :=
  fun _ _ => is_test_log_file_eq_some_iff

/-! ## Claim C6: the stored level of a parsed row -/

theorem parseRows_level_map (sid url : List Char) (fidx : Nat) :
    ∀ (rows : List HtmlRow) (ln : Nat),
      (parseRowsAux sid url fidx rows ln).map (fun e => e.level) =
        (rows.filter rowEmittedB).map
          (fun r => (r.levelText.map (fun s => trimBrackets (trimL s))).getD []) := by
  intro rows
  induction rows with
  | nil => intro ln; rfl
  | cons r rs ih =>
    intro ln
    unfold parseRowsAux
    by_cases h1 : r.hasTh = true
    · rw [if_pos h1]
      have hemit : rowEmittedB r = false := by simp [rowEmittedB, h1]
      rw [List.filter_cons_of_neg (by simp [hemit])]
      exact ih (ln + 1)
    · rw [if_neg h1]
      dsimp only
      by_cases h2 : ((rowTimestamp r).isEmpty || rowTimestamp r == tsHeaderL) = true
      · rw [if_pos h2]
        have hemit : rowEmittedB r = false := by
          rcases Bool.or_eq_true _ _ |>.mp h2 with h3 | h3 <;>
            simp [rowEmittedB, h3]
        rw [List.filter_cons_of_neg (by simp [hemit])]
        exact ih (ln + 1)
      · rw [if_neg h2]
        have h1' : r.hasTh = false := by simpa using h1
        have hemit : rowEmittedB r = true := by
          rw [Bool.or_eq_true] at h2
          push_neg at h2
          simp only [Bool.not_eq_true] at h2
          simp [rowEmittedB, h1', h2.1, h2.2]
        rw [List.filter_cons_of_pos hemit]
        simp only [List.map_cons]
        rw [ih (ln + 1)]

/-- C6 (counterexample): the claim says the stored level is the level
cell trimmed with AT MOST ONE leading `[` and one trailing `]` stripped.
On a cell reading `[[INFO]]` the parser stores `INFO` (it strips ALL
boundary brackets via `trim_matches`), while the claimed normalisation
yields `[INFO]`. -/
theorem c6_counterexample :
    (parse_html_string [rowBrackets] (strL "u") (strL "s") 0).map
        (fun e => e.level) = [strL "INFO"] ∧
    ([rowBrackets].filter rowEmittedB).map
        (fun r => (r.levelText.map (fun s => stripOneBrackets (trimL s))).getD [])
      = [strL "[INFO]"] :=
  ⟨by decide, by decide⟩

/-- C6 (amended): for every data row of a parsed HTML log document, the
stored level equals the text of the cell tagged `level`, trimmed, with
ALL leading and trailing `[` and `]` characters stripped (and `""` when
the cell is absent); stated for the whole emitted row sequence. -/
theorem c6_amended :
    ∀ (rows : List HtmlRow) (file_url test_session_id : List Char) (file_index : Nat),
      (parse_html_string rows file_url test_session_id file_index).map
          (fun e => e.level) =
        (rows.filter rowEmittedB).map
          (fun r => (r.levelText.map (fun s => trimBrackets (trimL s))).getD []) :=
  fun rows u s i => parseRows_level_map s u i rows 0

/-! ## Claim C3: the level filter of paginated reads -/

theorem any_or_split {α : Type} (l : List α) (p q : α → Bool) :
    (l.any p || l.any q) = l.any (fun x => p x || q x) := by
  induction l with
  | nil => rfl
  | cons x xs ih =>
    simp only [List.any_cons]
    rw [← ih]
    cases p x <;> cases q x <;> simp

/-- The assembled WHERE conditions agree row-wise with the (amended)
spec predicates. -/
theorem rowMatches_whereConds (levels : Option (List (List Char)))
    (search : Option (List Char)) (r : StoredEntry) :
    rowMatches (whereConds levels search) r =
      (specLevelAmended levels r.level && specSearch search r) := by
  unfold rowMatches whereConds
  rw [List.all_append]
  have hl : (levelConds levels).all (fun c => c r) = specLevelAmended levels r.level := by
    cases levels with
    | none => rfl
    | some ls =>
      simp only [levelConds, specLevelAmended]
      by_cases h1 : ls.isEmpty
      · simp [h1]
      · rw [if_neg h1, if_neg h1]
        by_cases h2 : (levelSetS ls).isEmpty
        · simp [h2]
        · rw [if_neg h2, if_neg h2]
          simp only [List.all_cons, List.all_nil, Bool.and_true]
          exact any_or_split (levelSetS ls) _ _
  have hs : (searchConds search).all (fun c => c r) = specSearch search r := by
    cases search with
    | none => rfl
    | some s => simp [searchConds, specSearch]
  rw [hl, hs]

/-- C3 (counterexample): the claim says that when `levels` is non-empty
but S (after dropping `""` and `"ALL"`) is empty — e.g.
`levels = {"ALL"}` — no row matches.  The code pushes NO level condition
in that case: a session row with level `INFO` is counted (total 1),
while the claimed predicate matches nothing (count 0). -/
theorem c3_counterexample :
    (get_entries_paginated [entryInfo] (strL "s") 0 10 (some [strL "ALL"]) none).2 = 1 ∧
    ([entryInfo].filter (fun r => r.session == strL "s" &&
        specLevelClaim (some [strL "ALL"]) r.level && specSearch none r)).length = 0 :=
  ⟨by decide, by decide⟩

/-- C3 (amended): with `levels` present, the empty set still yields an
empty page and zero total; when S := levels minus `""` and `"ALL"` is
non-empty a row is counted and returned iff its stored level is in S or
is `[x]` for `x ∈ S`; but when `levels` is non-empty and S is empty
(e.g. `{"ALL"}`) NO level predicate is applied and every session row
(subject to the search filter) is counted and returned.  Stated as: the
total and page of `get_entries_paginated` are computed by the amended
spec predicate. -/
theorem c3_amended :
    ∀ (db : List StoredEntry) (sid : List Char) (offset limit : Nat)
      (levels : Option (List (List Char))) (search : Option (List Char)),
      get_entries_paginated db sid offset limit levels search =
        (((isortBy leTsId (db.filter (fun r => r.session == sid &&
            specLevelAmended levels r.level && specSearch search r))).drop
              offset).take limit,
         (db.filter (fun r => r.session == sid &&
            specLevelAmended levels r.level && specSearch search r)).length) := by
  intro db sid offset limit levels search
  simp only [get_entries_paginated]
  have hfe : db.filter (fun r => r.session == sid && rowMatches (whereConds levels search) r) =
      db.filter (fun r => r.session == sid &&
        specLevelAmended levels r.level && specSearch search r) := by
    apply List.filter_congr
    intro x _
    rw [rowMatches_whereConds, Bool.and_assoc]
  rw [hfe]

/-! ## Claims C7 and C10: entry-to-page resolution -/

/-- C7: for every existing entry `E` (timestamp `T`, session `s`) and
`items_per_page = L > 0` with optional filters, `get_entry_page` returns
`⌊N / L⌋ + 1` where `N` counts the rows of `s` that satisfy the filter
predicate and sort strictly before `E` under `(timestamp, id)`; it
returns "not found" (`ok none`) exactly when no entry with that id
exists; the count predicate never tests `E` itself against the filters. -/
theorem c7_entry_page :
    ∀ (db : List StoredEntry) (entry_id : Int) (L : Nat)
      (levels : Option (List (List Char))) (search : Option (List Char)),
      0 < L →
      ((get_entry_page db entry_id L levels search = .ok none ↔
          db.find? (fun r => r.id == entry_id) = none) ∧
       (∀ e, db.find? (fun r => r.id == entry_id) = some e →
          get_entry_page db entry_id L levels search =
            .ok (some ((db.filter (fun r => r.session == e.session &&
                (specLevelAmended levels r.level && specSearch search r) &&
                beforeB e.timestamp e.id r)).length / L + 1)))) := by
  intro db entry_id L levels search hL
  cases hf : db.find? (fun r => r.id == entry_id) with
  | none =>
    constructor
    · simp [get_entry_page, hf]
    · intro e he
      cases he
  | some e =>
    constructor
    · simp [get_entry_page, hf, Nat.pos_iff_ne_zero.mp hL]
    · intro e' he'
      injection he' with he'
      subst he'
      simp only [get_entry_page, hf]
      rw [if_neg (Nat.pos_iff_ne_zero.mp hL)]
      have hfe : db.filter (fun r => r.session == e.session &&
            rowMatches (whereConds levels search) r && beforeB e.timestamp e.id r) =
          db.filter (fun r => r.session == e.session &&
            (specLevelAmended levels r.level && specSearch search r) &&
            beforeB e.timestamp e.id r) := by
        apply List.filter_congr
        intro x _
        rw [rowMatches_whereConds]
      rw [hfe]

/-- C7 witness: in the three-row session, entry 3 with page size 2 and
no filters lands on page `2/2 + 1 = 2`. -/
theorem c7_entry_page_witness :
    0 < 2 ∧ get_entry_page dbW 3 2 none none =
      .ok (some ((dbW.filter (fun r => r.session == entryT3.session &&
          (specLevelAmended none r.level && specSearch none r) &&
          beforeB entryT3.timestamp entryT3.id r)).length / 2 + 1)) :=
  ⟨by decide, (c7_entry_page dbW 3 2 none none (by decide)).2 entryT3 (by decide)⟩

/-- C10: `get_entry_page` and `find_entry_page_simple` divide by
`items_per_page` without a guard: with `items_per_page = 0` on an
existing entry both panic instead of returning an error value, and with
`items_per_page > 0` neither can panic. -/
theorem c10_unguarded_division :
    ∀ (db : List StoredEntry) (sid : List Char) (entry_id : Int)
      (levels : Option (List (List Char))) (search : Option (List Char)),
      (∀ e, db.find? (fun r => r.id == entry_id) = some e →
          get_entry_page db entry_id 0 levels search = .panicked) ∧
      (∀ e, db.find? (fun r => r.session == sid && r.id == entry_id) = some e →
          find_entry_page_simple db sid entry_id 0 = .panicked) ∧
      (∀ L, 0 < L → get_entry_page db entry_id L levels search ≠ .panicked) ∧
      (∀ L, 0 < L → find_entry_page_simple db sid entry_id L ≠ .panicked) := by
  intro db sid entry_id levels search
  refine ⟨?_, ?_, ?_, ?_⟩
  · intro e he
    simp [get_entry_page, he]
  · intro e he
    simp [find_entry_page_simple, he]
  · intro L hL
    cases hf : db.find? (fun r => r.id == entry_id) with
    | none => simp [get_entry_page, hf]
    | some e => simp [get_entry_page, hf, Nat.pos_iff_ne_zero.mp hL]
  · intro L hL
    cases hf : db.find? (fun r => r.session == sid && r.id == entry_id) with
    | none => simp [find_entry_page_simple, hf]
    | some e => simp [find_entry_page_simple, hf, Nat.pos_iff_ne_zero.mp hL]

/-- C10 witness: entry 3 exists in session `s`; with page size 0 both
routines panic, with page size 2 neither does. -/
theorem c10_unguarded_division_witness :
    get_entry_page dbW 3 0 none none = .panicked ∧
    find_entry_page_simple dbW (strL "s") 3 0 = .panicked ∧
    get_entry_page dbW 3 2 none none ≠ .panicked ∧
    find_entry_page_simple dbW (strL "s") 3 2 ≠ .panicked :=
  ⟨(c10_unguarded_division dbW (strL "s") 3 none none).1 entryT3 (by decide),
   (c10_unguarded_division dbW (strL "s") 3 none none).2.1 entryT3 (by decide),
   (c10_unguarded_division dbW (strL "s") 3 none none).2.2.1 2 (by decide),
   (c10_unguarded_division dbW (strL "s") 3 none none).2.2.2 2 (by decide)⟩

/-! ## Claim C9: chunked download strategy and reassembly -/

/-- Joining consecutive `C`-sized windows reproduces the list. -/
theorem flatMap_chunks_eq :
    ∀ (n : Nat) (bs : List Nat) (C : Nat), 0 < C → bs.length ≤ n * C →
      (List.range n).flatMap (fun i => (bs.drop (i * C)).take C) = bs := by
  intro n
  induction n with
  | zero =>
    intro bs C _ hlen
    have : bs = [] := List.eq_nil_of_length_eq_zero (by omega)
    simp [this]
  | succ n ih =>
    intro bs C hC hlen
    rw [List.range_succ_eq_map]
    rw [List.flatMap_cons, List.flatMap_map]
    have h1 : (fun i => (bs.drop ((i + 1) * C)).take C) =
        (fun i => (((bs.drop C).drop (i * C)).take C)) := by
      funext i
      rw [List.drop_drop]
      congr 2
      rw [Nat.succ_mul]
      omega
    have h2 : (List.range n).flatMap (fun a => (bs.drop (Nat.succ a * C)).take C) =
        (List.range n).flatMap (fun i => (((bs.drop C).drop (i * C)).take C)) := by
      apply List.flatMap_congr
      intro i _
      rw [List.drop_drop]
      congr 2
      rw [Nat.succ_mul]
      omega
    rw [h2, ih (bs.drop C) C hC (by
      rw [List.length_drop]
      rw [Nat.succ_mul] at hlen
      omega)]
    simp [List.take_append_drop]

/-- Inside the chunk count, the requested inclusive range is a full
window (or the final partial window) of the file bytes. -/
theorem rangeSlice_eq_window {bs : List Nat} {cl i : Nat}
    (hlen : bs.length = cl) (hcl : 0 < cl) (hi : i < totalChunksC cl) :
    rangeSlice bs (chunkRange cl i).1 (chunkRange cl i).2 =
      (bs.drop (i * chunkSizeC)).take chunkSizeC := by
  have hC : 0 < chunkSizeC := by norm_num [chunkSizeC]
  -- i < totalChunks → i * C < cl
  have hiC : i * chunkSizeC < cl := by
    have hq := Nat.div_add_mod' (cl + chunkSizeC - 1) chunkSizeC
    have hr := Nat.mod_lt (cl + chunkSizeC - 1) hC
    unfold totalChunksC at hi
    have h1 : i + 1 ≤ (cl + chunkSizeC - 1) / chunkSizeC := hi
    have h2 : (i + 1) * chunkSizeC ≤
        ((cl + chunkSizeC - 1) / chunkSizeC) * chunkSizeC :=
      Nat.mul_le_mul_right _ h1
    rw [Nat.succ_mul] at h2
    omega
  unfold rangeSlice chunkRange
  dsimp only
  by_cases hcase : i * chunkSizeC + chunkSizeC - 1 ≤ cl - 1
  · rw [min_eq_left hcase]
    have harg : i * chunkSizeC + chunkSizeC - 1 + 1 - i * chunkSizeC = chunkSizeC := by
      omega
    rw [harg]
  · push_neg at hcase
    rw [min_eq_right (le_of_lt hcase)]
    have hb : cl - 1 + 1 - i * chunkSizeC = cl - i * chunkSizeC := by omega
    have hdl : (bs.drop (i * chunkSizeC)).length = cl - i * chunkSizeC := by
      rw [List.length_drop, hlen]
    have h1 : (bs.drop (i * chunkSizeC)).take (cl - i * chunkSizeC) =
        bs.drop (i * chunkSizeC) :=
      List.take_of_length_le (by rw [hdl])
    have h2 : (bs.drop (i * chunkSizeC)).take chunkSizeC =
        bs.drop (i * chunkSizeC) :=
      List.take_of_length_le (by rw [hdl]; omega)
    rw [hb, h1, h2]

/-- The reassembled chunked download equals the server's file bytes. -/
theorem mergedChunks_eq {bs : List Nat} {cl : Nat}
    (hlen : bs.length = cl) (hcl : 0 < cl) :
    mergedChunks bs cl = bs := by
  have hC : 0 < chunkSizeC := by norm_num [chunkSizeC]
  unfold mergedChunks
  have h1 : (List.range (totalChunksC cl)).flatMap (fun i =>
      rangeSlice bs (chunkRange cl i).1 (chunkRange cl i).2) =
      (List.range (totalChunksC cl)).flatMap (fun i =>
        (bs.drop (i * chunkSizeC)).take chunkSizeC) := by
    apply List.flatMap_congr
    intro i hi
    exact rangeSlice_eq_window hlen hcl (List.mem_range.mp hi)
  rw [h1]
  apply flatMap_chunks_eq _ _ _ hC
  -- cl ≤ totalChunks * C (ceiling upper bound)
  have hq := Nat.div_add_mod' (cl + chunkSizeC - 1) chunkSizeC
  have hr := Nat.mod_lt (cl + chunkSizeC - 1) hC
  unfold totalChunksC
  rw [hlen]
  omega

/-- C9: chunked mode is chosen iff the HEAD `Content-Length` is at least
10 MiB and `Accept-Ranges` equals `bytes` case-insensitively; the chunk
count is the least `m` with `content_length ≤ m·5MiB` (the ceiling);
chunk `i` requests `[i·5MiB, min((i+1)·5MiB − 1, content_length − 1)]`;
and on full success the reassembled content — the chunks concatenated in
ascending index order — equals the server's file bytes. -/
theorem c9_chunked_strategy :
    ∀ (contentLength : Nat) (hdr : Option (List Char)) (bytes : List Nat),
      (useChunked contentLength (acceptsRanges hdr) = true ↔
        (chunkedThresholdC ≤ contentLength ∧
         ∃ v, hdr = some v ∧ v.map lowerC = strL "bytes")) ∧
      (0 < contentLength →
        contentLength ≤ totalChunksC contentLength * chunkSizeC ∧
        ∀ m, contentLength ≤ m * chunkSizeC → totalChunksC contentLength ≤ m) ∧
      (∀ i, chunkRange contentLength i =
        (i * chunkSizeC, min ((i + 1) * chunkSizeC - 1) (contentLength - 1))) ∧
      (bytes.length = contentLength → chunkedThresholdC ≤ contentLength →
        mergedChunks bytes contentLength = bytes) := by
  intro cl hdr bytes
  have hC : 0 < chunkSizeC := by norm_num [chunkSizeC]
  refine ⟨?_, ?_, ?_, ?_⟩
  · cases hdr with
    | none => simp [useChunked, acceptsRanges]
    | some v =>
      simp only [useChunked, acceptsRanges, Option.map_some, Option.getD_some,
        Bool.and_eq_true, decide_eq_true_eq, eqIgnoreAsciiCase]
      constructor
      · rintro ⟨h1, h2⟩
        refine ⟨h1, v, rfl, ?_⟩
        have := of_decide_eq_true h2
        rw [this]
        decide
      · rintro ⟨h1, v', hv', h2⟩
        injection hv' with hv'
        subst hv'
        refine ⟨h1, decide_eq_true ?_⟩
        rw [h2]
        decide
  · intro hcl
    have hq := Nat.div_add_mod' (cl + chunkSizeC - 1) chunkSizeC
    have hr := Nat.mod_lt (cl + chunkSizeC - 1) hC
    constructor
    · unfold totalChunksC
      omega
    · intro m hm
      unfold totalChunksC
      rw [Nat.div_le_iff_le_mul_add_pred hC, Nat.mul_comm]
      omega
  · intro i
    simp [chunkRange, Nat.succ_mul]
  · intro hlen hth
    exact mergedChunks_eq hlen (by unfold chunkedThresholdC at hth; omega)

/-- C9 witness: a 10 MiB server file at exactly the chunked threshold —
the hypotheses hold and reassembly returns the file bytes. -/
theorem c9_chunked_strategy_witness :
    (List.replicate chunkedThresholdC (0 : Nat)).length = chunkedThresholdC ∧
    mergedChunks (List.replicate chunkedThresholdC (0 : Nat)) chunkedThresholdC =
      List.replicate chunkedThresholdC (0 : Nat) :=
  ⟨List.length_replicate _ _,
   (c9_chunked_strategy chunkedThresholdC none
      (List.replicate chunkedThresholdC 0)).2.2.2
     (List.length_replicate _ _) (le_refl _)⟩

/-! ## Claims C1 and C2: the all-or-nothing session pipeline -/

theorem except_map_toOption {ε α β : Type} (f : α → β) (x : Except ε α) :
    (x.map f).toOption = x.toOption.map f := by
  cases x <;> rfl

theorem anyErr_eq_true_iff {ε α : Type} {l : List (Except ε α)} :
    anyErr l = true ↔ ∃ r ∈ l, r.toOption = none := by
  unfold anyErr
  rw [List.any_eq_true]
  constructor
  · rintro ⟨r, hr, h⟩
    refine ⟨r, hr, ?_⟩
    cases hro : r.toOption with
    | none => rfl
    | some a => rw [hro] at h; simp at h
  · rintro ⟨r, hr, h⟩
    exact ⟨r, hr, by rw [h]; rfl⟩

/-- C1: over the HTTP path, if some file of a session fails to download
(after its retry budget, which is abstracted into the per-URL outcome)
or some downloaded file fails to parse, `download_single_session`
returns an error and the store — including any prior session row with
the same `(name, directory_path)`, its log entries and its bookmarks —
is returned exactly as it was. -/
theorem c1_all_or_nothing :
    ∀ (fetch : List Char → Except Unit (List Char))
      (parse : List Char → List Char → List Char → Nat → Except Unit (List LogEntry))
      (session_name url session_id : List Char)
      (log_files : List (List Char × Nat)) (store : Store),
      ((∃ p ∈ log_files, (fetch p.1).toOption = none) ∨
       (∃ p ∈ log_files, ∃ c, fetch p.1 = .ok c ∧
          (parse c p.1 session_id p.2).toOption = none)) →
      download_single_session fetch parse session_name url session_id log_files store =
        (.error (), store) := by
  intro fetch parse session_name url session_id log_files store h
  have herr : sessionEntriesE fetch parse session_id log_files = .error () := by
    unfold sessionEntriesE
    by_cases hdl : anyErr (downloadResults fetch log_files) = true
    · rw [if_pos hdl]
    · rw [if_neg hdl]
      rcases h with ⟨p, hp, hf⟩ | ⟨p, hp, c, hfc, hpe⟩
      · exfalso
        apply hdl
        rw [anyErr_eq_true_iff]
        refine ⟨(fetch p.1).map (fun c => (p.1, c, p.2)), ?_, ?_⟩
        · unfold downloadResults
          exact List.mem_map.mpr ⟨p, hp, rfl⟩
        · rw [except_map_toOption, hf]; rfl
      · have hmem : (p.1, c, p.2) ∈ isortBy leIdx (okValues (downloadResults fetch log_files)) := by
          rw [mem_isortBy]
          unfold okValues downloadResults
          apply List.mem_filterMap.mpr
          refine ⟨(fetch p.1).map (fun c' => (p.1, c', p.2)), List.mem_map.mpr ⟨p, hp, rfl⟩, ?_⟩
          rw [hfc]; rfl
        have : anyErr ((isortBy leIdx (okValues (downloadResults fetch log_files))).map
            (fun t => parse t.2.1 t.1 session_id t.2.2)) = true := by
          rw [anyErr_eq_true_iff]
          exact ⟨parse c p.1 session_id p.2,
            List.mem_map.mpr ⟨(p.1, c, p.2), hmem, rfl⟩, hpe⟩
        rw [if_pos this]
  unfold download_single_session
  rw [herr]

/-- C1 witness: a one-file session whose download fails leaves the
prior store (session row, entry, bookmark) untouched; same for a parse
failure. -/
theorem c1_all_or_nothing_witness :
    download_single_session fetchFailW parseEmptyW (strL "T_ID_1")
        (strL "http://h/logs/") (strL "new") [(strL "u", 0)] storeW =
      (.error (), storeW) ∧
    download_single_session fetchEmptyW parseFailW (strL "T_ID_1")
        (strL "http://h/logs/") (strL "new") [(strL "u", 0)] storeW =
      (.error (), storeW) :=
  ⟨c1_all_or_nothing fetchFailW parseEmptyW _ _ _ _ storeW
      (Or.inl ⟨(strL "u", 0), List.mem_singleton.mpr rfl, rfl⟩),
   c1_all_or_nothing fetchEmptyW parseFailW _ _ _ _ storeW
      (Or.inr ⟨(strL "u", 0), List.mem_singleton.mpr rfl, [], rfl, rfl⟩)⟩

/-- C2: if every file downloads and parses successfully but the
concatenated entry list is empty, `download_single_session` deletes the
prior `(name, directory_path)` session and returns success WITHOUT
inserting a new session row: afterwards the store holds no session for
that `(name, directory_path)` (given the invariant that at most one row
matched it) and the returned fresh session id names no stored row. -/
theorem c2_empty_parse_deletes :
    ∀ (fetch : List Char → Except Unit (List Char))
      (parse : List Char → List Char → List Char → Nat → Except Unit (List LogEntry))
      (session_name url session_id : List Char)
      (log_files : List (List Char × Nat)) (store : Store),
      sessionEntriesE fetch parse session_id log_files = .ok [] →
      (∀ a ∈ store.sessions, ∀ b ∈ store.sessions,
        (a.name == session_name && a.directory_path == url) = true →
        (b.name == session_name && b.directory_path == url) = true → a = b) →
      session_id ∉ store.sessions.map (fun s => s.id) →
      (download_single_session fetch parse session_name url session_id log_files store =
        (.ok session_id, (delete_session_by_name_and_path store session_name url).1) ∧
       (∀ s ∈ ((delete_session_by_name_and_path store session_name url).1).sessions,
          (s.name == session_name && s.directory_path == url) = false) ∧
       session_id ∉
         ((delete_session_by_name_and_path store session_name url).1).sessions.map
           (fun s => s.id)) := by
  intro fetch parse session_name url session_id log_files store hok huniq hfresh
  refine ⟨?_, ?_, ?_⟩
  · unfold download_single_session
    rw [hok]
    rfl
  · intro s hs
    unfold delete_session_by_name_and_path at hs
    cases hfind : store.sessions.find?
        (fun s => s.name == session_name && s.directory_path == url) with
    | none =>
      rw [hfind] at hs
      dsimp only at hs
      have := List.find?_eq_none.mp hfind s hs
      exact Bool.not_eq_true _ |>.mp this
    | some s0 =>
      rw [hfind] at hs
      dsimp only [delete_session] at hs
      rw [List.mem_filter] at hs
      by_contra hc
      have hmatch : (s.name == session_name && s.directory_path == url) = true :=
        Bool.eq_true_of_not_eq_false hc
      have hs0mem := List.mem_of_find?_eq_some hfind
      have hs0match := List.find?_some hfind
      have heq : s = s0 := huniq s hs.1 s0 hs0mem hmatch hs0match
      have : (!(s.id == s0.id)) = true := hs.2
      rw [heq] at this
      simp at this
  · intro hc
    apply hfresh
    rcases List.mem_map.mp hc with ⟨s, hs, hid⟩
    apply List.mem_map.mpr
    refine ⟨s, ?_, hid⟩
    unfold delete_session_by_name_and_path at hs
    cases hfind : store.sessions.find?
        (fun s => s.name == session_name && s.directory_path == url) with
    | none => rw [hfind] at hs; exact hs
    | some s0 =>
      rw [hfind] at hs
      dsimp only [delete_session] at hs
      exact (List.mem_filter.mp hs).1

/-- C2 witness: all files "download" and parse to zero entries; the
prior session row is removed, nothing matching `(name, path)` remains,
and the new id names no row. -/
theorem c2_empty_parse_deletes_witness :
    (download_single_session fetchEmptyW parseEmptyW (strL "T_ID_1")
        (strL "http://h/logs/") (strL "new") [(strL "u", 0)] storeW =
      (.ok (strL "new"),
        (delete_session_by_name_and_path storeW (strL "T_ID_1") (strL "http://h/logs/")).1) ∧
     (∀ s ∈ ((delete_session_by_name_and_path storeW (strL "T_ID_1")
          (strL "http://h/logs/")).1).sessions,
        (s.name == strL "T_ID_1" && s.directory_path == strL "http://h/logs/") = false) ∧
     strL "new" ∉
       ((delete_session_by_name_and_path storeW (strL "T_ID_1")
          (strL "http://h/logs/")).1).sessions.map (fun s => s.id)) :=
  c2_empty_parse_deletes fetchEmptyW parseEmptyW _ _ _ [(strL "u", 0)] storeW
    rfl (by decide) (by decide)

/-! ## Claim C4: file-index assignment and per-session ordering -/

theorem withIdx_mem {α : Type} :
    ∀ (l : List α) (i : Nat) (p : α × Nat), p ∈ withIdx i l →
      ∃ j, p.2 = i + j ∧ l[j]? = some p.1 := by
  intro l
  induction l with
  | nil => intro i p hp; cases hp
  | cons a as ih =>
    intro i p hp
    rcases List.mem_cons.mp hp with h | h
    · subst h
      exact ⟨0, by omega, by simp⟩
    · rcases ih (i + 1) p h with ⟨j, hj, hget⟩
      exact ⟨j + 1, by omega, by simpa using hget⟩

theorem withIdx_snd_ge {α : Type} :
    ∀ (l : List α) (i : Nat) (p : α × Nat), p ∈ withIdx i l → i ≤ p.2 := by
  intro l
  induction l with
  | nil => intro i p hp; cases hp
  | cons a as ih =>
    intro i p hp
    rcases List.mem_cons.mp hp with h | h
    · subst h; exact le_refl _
    · exact le_trans (by omega) (ih (i + 1) p h)

theorem withIdx_pairwise {α : Type} :
    ∀ (l : List α) (i : Nat),
      List.Pairwise (fun a b : α × Nat => a.2 < b.2) (withIdx i l) := by
  intro l
  induction l with
  | nil => intro i; exact List.Pairwise.nil
  | cons a as ih =>
    intro i
    refine List.Pairwise.cons ?_ (ih (i + 1))
    intro p hp
    have := withIdx_snd_ge as (i + 1) p hp
    omega

/-- An insertion sort of an already `le`-sorted list is the identity. -/
theorem isortBy_of_pairwise {α : Type} {le : α → α → Bool} :
    ∀ {l : List α}, List.Pairwise (fun a b => le a b = true) l →
      isortBy le l = l := by
  intro l
  induction l with
  | nil => intro _; rfl
  | cons x xs ih =>
    intro h
    rcases List.pairwise_cons.mp h with ⟨hx, hxs⟩
    unfold isortBy
    rw [ih hxs]
    cases xs with
    | nil => rfl
    | cons y ys =>
      unfold insertLe
      rw [if_pos (hx y (List.mem_cons_self y ys))]

theorem okValues_map_pure {α β : Type} (g : β → α) :
    ∀ (l : List β),
      okValues (l.map (fun b => (Except.ok (g b) : Except Unit α))) = l.map g := by
  intro l
  induction l with
  | nil => rfl
  | cons b bs ih =>
    rw [List.map_cons]
    have h1 : okValues ((Except.ok (g b) : Except Unit α) ::
        bs.map (fun x => (Except.ok (g x) : Except Unit α))) =
        g b :: okValues (bs.map (fun x => (Except.ok (g x) : Except Unit α))) := rfl
    rw [h1, ih, List.map_cons]

theorem okValues_map_ok {fetch : List Char → Except Unit (List Char)}
    {content : List Char → List Char} :
    ∀ (files : List (List Char × Nat)),
      (∀ p ∈ files, fetch p.1 = .ok (content p.1)) →
      okValues (downloadResults fetch files) =
        files.map (fun p => (p.1, content p.1, p.2)) := by
  intro files
  induction files with
  | nil => intro _; rfl
  | cons p ps ih =>
    intro hf
    have h1 : downloadResults fetch (p :: ps) =
        ((fetch p.1).map fun c => (p.1, c, p.2)) :: downloadResults fetch ps := rfl
    rw [h1, hf p (List.mem_cons_self p ps)]
    have h2 : okValues
        ((Except.map (fun c => (p.1, c, p.2)) (Except.ok (content p.1)) :
            Except Unit (List Char × List Char × Nat)) :: downloadResults fetch ps) =
        (p.1, content p.1, p.2) :: okValues (downloadResults fetch ps) := rfl
    rw [h2, ih (fun q hq => hf q (List.mem_cons_of_mem p hq)), List.map_cons]

/-- C4 (counterexample): the claim says the file index attached in the
HTTP path is the trailing digits after `---`.  With the listing
`[…---1.html, …---0.html]` the group pairs the `---1` file with index 0
(its position in the listing), although its trailing digits read 1: the
sort by this index therefore keeps listing order, not trailing-digit
order. -/
theorem c4_counterexample :
    (strL "http://h/T_ID_1---1.html", 0) ∈
        groupFiles (filter_test_log_files urlsW) (strL "T_ID_1") ∧
    trailingIndexOf (fileNameOf (strL "http://h/T_ID_1---1.html")) = some 1 ∧
    (strL "http://h/T_ID_1---0.html", 1) ∈
        groupFiles (filter_test_log_files urlsW) (strL "T_ID_1") ∧
    trailingIndexOf (fileNameOf (strL "http://h/T_ID_1---0.html")) = some 0 :=
  ⟨by decide, by decide, by decide, by decide⟩

/-- C4 (amended): in the HTTP path the index attached to each file of a
session group is its POSITION in the filtered directory listing (not the
trailing digits of its name); the group lists files in ascending listing
position; and, when every file downloads and parses, the sort by this
stored index is the identity on the group, so the emitted entry sequence
is the concatenation of the per-file parses in LISTING order (ascending
line number within each file as produced by the parser). -/
theorem c4_amended :
    ∀ (urls : List (List Char)) (key : List Char)
      (fetch : List Char → Except Unit (List Char))
      (parse : List Char → List Char → List Char → Nat → Except Unit (List LogEntry))
      (content : List Char → List Char) (ents : List Char × Nat → List LogEntry)
      (session_id : List Char),
      (∀ p ∈ groupFiles (filter_test_log_files urls) key,
        fetch p.1 = .ok (content p.1)) →
      (∀ p ∈ groupFiles (filter_test_log_files urls) key,
        parse (content p.1) p.1 session_id p.2 = .ok (ents p)) →
      ((∀ p ∈ groupFiles (filter_test_log_files urls) key,
          (filter_test_log_files urls)[p.2]? = some p.1 ∧ keyOf p.1 = some key) ∧
       List.Pairwise (fun a b : List Char × Nat => a.2 < b.2)
         (groupFiles (filter_test_log_files urls) key) ∧
       sessionEntriesE fetch parse session_id
           (groupFiles (filter_test_log_files urls) key) =
         .ok ((groupFiles (filter_test_log_files urls) key).flatMap ents)) := by
  intro urls key fetch parse content ents session_id hf hp
  have hpair : List.Pairwise (fun a b : List Char × Nat => a.2 < b.2)
      (groupFiles (filter_test_log_files urls) key) :=
    List.Pairwise.sublist (List.filter_sublist _) (withIdx_pairwise _ 0)
  refine ⟨?_, hpair, ?_⟩
  · intro p hpm
    unfold groupFiles at hpm
    rcases List.mem_filter.mp hpm with ⟨hmem, hkey⟩
    rcases withIdx_mem _ 0 p hmem with ⟨j, hj, hget⟩
    constructor
    · rw [show p.2 = j from by omega]
      exact hget
    · simpa using hkey
  · set files := groupFiles (filter_test_log_files urls) key with hfiles
    unfold sessionEntriesE
    have hnodl : anyErr (downloadResults fetch files) = false := by
      rw [Bool.eq_false_iff]
      intro hc
      rcases anyErr_eq_true_iff.mp hc with ⟨r, hr, hnone⟩
      unfold downloadResults at hr
      rcases List.mem_map.mp hr with ⟨p, hpmem, rfl⟩
      rw [hf p hpmem] at hnone
      cases hnone
    rw [hnodl]
    simp only [Bool.false_eq_true, if_false]
    rw [okValues_map_ok files hf]

    have hsorted : isortBy leIdx (files.map (fun p => (p.1, content p.1, p.2))) =
        files.map (fun p => (p.1, content p.1, p.2)) := by
      apply isortBy_of_pairwise
      rw [List.pairwise_map]
      apply hpair.imp
      intro a b hab
      simp only [leIdx]
      exact decide_eq_true (le_of_lt hab)
    rw [hsorted]
    have hparsed : (files.map (fun p => (p.1, content p.1, p.2))).map
        (fun t => parse t.2.1 t.1 session_id t.2.2) =
        files.map (fun p => Except.ok (ents p)) := by
      rw [List.map_map]
      apply List.map_congr_left
      intro p hpmem
      exact hp p hpmem
    rw [hparsed]
    have hnop : anyErr (files.map (fun p => (Except.ok (ents p) : Except Unit (List LogEntry)))) = false := by
      rw [Bool.eq_false_iff]
      intro hc
      rcases anyErr_eq_true_iff.mp hc with ⟨r, hr, hnone⟩
      rcases List.mem_map.mp hr with ⟨p, _, rfl⟩
      cases hnone
    rw [hnop]
    simp only [Bool.false_eq_true, if_false]
    congr 1
    rw [okValues_map_pure ents files, List.flatMap_def]

/-- Witness for the amended C4 at the concrete listing `urlsW` with a
constant fetcher and an empty-parse parser. -/
theorem c4_amended_witness :
    (∀ p ∈ groupFiles (filter_test_log_files urlsW) (strL "T_ID_1"),
        (filter_test_log_files urlsW)[p.2]? = some p.1 ∧
        keyOf p.1 = some (strL "T_ID_1")) ∧
    List.Pairwise (fun a b : List Char × Nat => a.2 < b.2)
      (groupFiles (filter_test_log_files urlsW) (strL "T_ID_1")) ∧
    sessionEntriesE (fun _ => Except.ok (strL "c"))
        (fun _ _ _ _ => Except.ok ([] : List LogEntry)) (strL "sid")
        (groupFiles (filter_test_log_files urlsW) (strL "T_ID_1")) =
      Except.ok ((groupFiles (filter_test_log_files urlsW) (strL "T_ID_1")).flatMap
        (fun _ => ([] : List LogEntry))) :=
  c4_amended urlsW (strL "T_ID_1") (fun _ => Except.ok (strL "c"))
    (fun _ _ _ _ => Except.ok ([] : List LogEntry))
    (fun _ => strL "c") (fun _ => ([] : List LogEntry)) (strL "sid")
    (fun _ _ => rfl) (fun _ _ => rfl)

/-! ## Claim C8: bookmark synthesizer — basic operation lemmas -/

theorem firstBmFor_update (st : Store) (bid : Int) (c t : List Char) (eid : Int) :
    firstBmFor (update_bookmark_color_and_title st bid c t) eid =
      (firstBmFor st eid).map (fun b =>
        if b.id == bid then { b with color := some c, title := some t } else b) := by
  unfold firstBmFor update_bookmark_color_and_title
  dsimp only
  have hcomp : ((fun b : BRow => b.log_entry_id == eid) ∘ (fun b =>
      if b.id == bid then { b with color := some c, title := some t } else b)) =
      (fun b : BRow => b.log_entry_id == eid) := by
    funext b
    by_cases h : (b.id == bid) = true <;> simp [Function.comp, h]
  rw [List.find?_map, hcomp]

theorem countBm_update (st : Store) (bid : Int) (c t : List Char) (eid : Int) :
    countBm (update_bookmark_color_and_title st bid c t) eid = countBm st eid := by
  unfold countBm update_bookmark_color_and_title
  dsimp only
  have hcomp : ((fun b : BRow => b.log_entry_id == eid) ∘ (fun b =>
      if b.id == bid then { b with color := some c, title := some t } else b)) =
      (fun b : BRow => b.log_entry_id == eid) := by
    funext b
    by_cases h : (b.id == bid) = true <;> simp [Function.comp, h]
  rw [List.filter_map, hcomp, List.length_map]

theorem entries_update (st : Store) (bid : Int) (c t : List Char) :
    (update_bookmark_color_and_title st bid c t).entries = st.entries := rfl

theorem firstBmFor_addBm_ne (st : Store) (eid' : Int) (ti co : Option (List Char))
    {eid : Int} (h : eid ≠ eid') :
    firstBmFor (addBm st eid' ti co) eid = firstBmFor st eid := by
  unfold firstBmFor addBm
  dsimp only
  rw [List.find?_append]
  cases hf : st.bookmarks.find? (fun b => b.log_entry_id == eid) with
  | some b => rfl
  | none =>
    have : ((⟨st.nextBookmarkId, eid', ti, none, co⟩ : BRow).log_entry_id == eid) = false := by
      simp
      omega
    simp [List.find?, this]

theorem firstBmFor_addBm_self (st : Store) (eid : Int) (ti co : Option (List Char))
    (h : firstBmFor st eid = none) :
    firstBmFor (addBm st eid ti co) eid =
      some { id := st.nextBookmarkId, log_entry_id := eid, title := ti,
             notes := none, color := co } := by
  unfold firstBmFor addBm
  dsimp only
  rw [List.find?_append]
  unfold firstBmFor at h
  rw [h]
  simp [List.find?]

theorem countBm_addBm (st : Store) (eid' : Int) (ti co : Option (List Char)) (eid : Int) :
    countBm (addBm st eid' ti co) eid =
      countBm st eid + (if eid = eid' then 1 else 0) := by
  unfold countBm addBm
  dsimp only
  rw [List.filter_append, List.length_append]
  congr 1
  by_cases h : eid = eid'
  · subst h; simp [List.filter]
  · simp only [List.filter]
    have : ((⟨st.nextBookmarkId, eid', ti, none, co⟩ : BRow).log_entry_id == eid) = false := by
      simp
      omega
    simp [this, h]

theorem entries_addBm (st : Store) (eid : Int) (ti co : Option (List Char)) :
    (addBm st eid ti co).entries = st.entries := rfl

theorem countBm_pos_iff {st : Store} {eid : Int} :
    0 < countBm st eid ↔ (firstBmFor st eid).isSome = true := by
  unfold countBm firstBmFor
  rw [← List.countP_eq_length_filter, List.countP_pos_iff, List.find?_isSome]

theorem firstBmFor_eq_none_of_count_zero {st : Store} {eid : Int}
    (h : countBm st eid = 0) : firstBmFor st eid = none := by
  have := @countBm_pos_iff st eid
  cases hf : firstBmFor st eid with
  | none => rfl
  | some b =>
    rw [hf] at this
    simp at this
    omega

theorem firstBmFor_mem {st : Store} {eid : Int} {b : BRow}
    (h : firstBmFor st eid = some b) :
    b ∈ st.bookmarks ∧ b.log_entry_id = eid := by
  refine ⟨List.mem_of_find?_eq_some h, ?_⟩
  have := List.find?_some h
  simpa using this

/-- Rows with distinct entry attachments are distinct rows, hence have
distinct ids under `BmWF`. -/
theorem bm_id_inj {st : Store} (hWF : BmWF st) {b b' : BRow}
    (hb : b ∈ st.bookmarks) (hb' : b' ∈ st.bookmarks) (h : b.id = b'.id) :
    b = b' :=
  List.inj_on_of_nodup_map hWF.1 hb hb' h

theorem bmWF_update {st : Store} (bid : Int) (c t : List Char) (hWF : BmWF st) :
    BmWF (update_bookmark_color_and_title st bid c t) := by
  unfold BmWF update_bookmark_color_and_title
  dsimp only
  constructor
  · rw [List.map_map]
    have : ((fun b : BRow => b.id) ∘ (fun b =>
        if b.id == bid then { b with color := some c, title := some t } else b)) =
        (fun b : BRow => b.id) := by
      funext b
      by_cases h : (b.id == bid) = true <;> simp [Function.comp, h]
    rw [this]
    exact hWF.1
  · intro b hb
    rcases List.mem_map.mp hb with ⟨b', hb', rfl⟩
    by_cases h : (b'.id == bid) = true <;> simp only [h, if_true, if_false] <;>
      exact hWF.2 b' hb'

theorem bmWF_addBm {st : Store} (eid : Int) (ti co : Option (List Char))
    (hWF : BmWF st) : BmWF (addBm st eid ti co) := by
  unfold BmWF addBm
  dsimp only
  constructor
  · rw [List.map_append]
    apply List.Nodup.append hWF.1 (by simp)
    intro a ha hb
    simp only [List.map_cons, List.map_nil, List.mem_singleton] at hb
    rcases List.mem_map.mp ha with ⟨b', hb', rfl⟩
    have := hWF.2 b' hb'
    omega
  · intro b hb
    rcases List.mem_append.mp hb with h | h
    · have := hWF.2 b h
      omega
    · rcases List.mem_singleton.mp h with rfl
      simp

/-! ## Claim C8: step lemmas -/

theorem p1Step_entries (st : Store) (eid : Int) :
    (p1Step st eid).entries = st.entries := by
  unfold p1Step
  cases hfb : firstBmFor st eid with
  | none => rfl
  | some b => dsimp only; split <;> rfl

theorem p2Step_entries (st : Store) (it : Int × List Char × Nat) :
    (p2Step st it).entries = st.entries := by
  unfold p2Step
  split
  · cases hfb : firstBmFor st it.1 with
    | none => rfl
    | some b => dsimp only; split <;> rfl
  · rfl

theorem p34Step_entries (st : Store) (it : Int × List Char × List Char × Nat) :
    (p34Step st it).entries = st.entries := by
  unfold p34Step
  split
  · rfl
  · cases p34Title it.2.1 it.2.2.1 with
    | none => rfl
    | some t => rfl

theorem p1Step_WF {st : Store} (hWF : BmWF st) (eid : Int) : BmWF (p1Step st eid) := by
  unfold p1Step
  cases hfb : firstBmFor st eid with
  | none => exact bmWF_addBm _ _ _ hWF
  | some b =>
    dsimp only
    split
    · exact bmWF_update _ _ _ hWF
    · exact hWF

theorem p2Step_WF {st : Store} (hWF : BmWF st) (it : Int × List Char × Nat) :
    BmWF (p2Step st it) := by
  unfold p2Step
  split
  · cases hfb : firstBmFor st it.1 with
    | none => exact hWF
    | some b =>
      dsimp only
      split
      · exact bmWF_update _ _ _ hWF
      · exact hWF
  · exact bmWF_addBm _ _ _ hWF

theorem p34Step_WF {st : Store} (hWF : BmWF st) (it : Int × List Char × List Char × Nat) :
    BmWF (p34Step st it) := by
  unfold p34Step
  split
  · exact hWF
  · cases p34Title it.2.1 it.2.2.1 with
    | none => exact hWF
    | some t => exact bmWF_addBm _ _ _ hWF

/-- Updating the first bookmark of a DIFFERENT entry does not disturb
`firstBmFor`/`countBm` of `x` (needs id uniqueness). -/
theorem update_first_frame {st : Store} {x y : Int} {b : BRow}
    (hWF : BmWF st) (hxy : x ≠ y) (hfb : firstBmFor st y = some b)
    (c t : List Char) :
    firstBmFor (update_bookmark_color_and_title st b.id c t) x = firstBmFor st x := by
  rw [firstBmFor_update]
  cases hbx : firstBmFor st x with
  | none => rfl
  | some bx =>
    have hbmem := firstBmFor_mem hbx
    have hbymem := firstBmFor_mem hfb
    have hne : (bx.id == b.id) = false := by
      rw [beq_eq_false_iff_ne]
      intro hc
      have heq := bm_id_inj hWF hbmem.1 hbymem.1 hc
      subst heq
      exact hxy (hbmem.2.symm.trans hbymem.2)
    show some (if bx.id == b.id then { bx with color := some c, title := some t } else bx)
      = some bx
    rw [if_neg (by simp [hne])]

theorem p1Step_frame {st : Store} {x y : Int} (hWF : BmWF st) (hxy : x ≠ y) :
    firstBmFor (p1Step st y) x = firstBmFor st x ∧
    countBm (p1Step st y) x = countBm st x := by
  unfold p1Step
  cases hfb : firstBmFor st y with
  | none =>
    refine ⟨firstBmFor_addBm_ne st y _ _ hxy, ?_⟩
    rw [countBm_addBm]
    simp [hxy]
  | some b =>
    dsimp only
    split
    · exact ⟨update_first_frame hWF hxy hfb _ _, countBm_update _ _ _ _ _⟩
    · exact ⟨rfl, rfl⟩

theorem p2Step_frame {st : Store} {x : Int} {it : Int × List Char × Nat}
    (hWF : BmWF st) (hxy : x ≠ it.1) :
    firstBmFor (p2Step st it) x = firstBmFor st x ∧
    countBm (p2Step st it) x = countBm st x := by
  unfold p2Step
  split
  · cases hfb : firstBmFor st it.1 with
    | none => exact ⟨rfl, rfl⟩
    | some b =>
      dsimp only
      split
      · exact ⟨update_first_frame hWF hxy hfb _ _, countBm_update _ _ _ _ _⟩
      · exact ⟨rfl, rfl⟩
  · refine ⟨firstBmFor_addBm_ne st it.1 _ _ hxy, ?_⟩
    rw [countBm_addBm]
    simp [hxy]

theorem p34Step_frame {st : Store} {x : Int} {it : Int × List Char × List Char × Nat}
    (hxy : x ≠ it.1) :
    firstBmFor (p34Step st it) x = firstBmFor st x ∧
    countBm (p34Step st it) x = countBm st x := by
  unfold p34Step
  split
  · exact ⟨rfl, rfl⟩
  · cases p34Title it.2.1 it.2.2.1 with
    | none => exact ⟨rfl, rfl⟩
    | some t =>
      refine ⟨firstBmFor_addBm_ne st it.1 _ _ hxy, ?_⟩
      rw [countBm_addBm]
      simp [hxy]

theorem foldl_p1_WF : ∀ (l : List Int) (st : Store), BmWF st →
    BmWF (l.foldl p1Step st) := by
  intro l
  induction l with
  | nil => intro st h; exact h
  | cons y ys ih => intro st h; exact ih _ (p1Step_WF h y)

theorem foldl_p2_WF : ∀ (l : List (Int × List Char × Nat)) (st : Store), BmWF st →
    BmWF (l.foldl p2Step st) := by
  intro l
  induction l with
  | nil => intro st h; exact h
  | cons y ys ih => intro st h; exact ih _ (p2Step_WF h y)

theorem foldl_p34_WF : ∀ (l : List (Int × List Char × List Char × Nat)) (st : Store),
    BmWF st → BmWF (l.foldl p34Step st) := by
  intro l
  induction l with
  | nil => intro st h; exact h
  | cons y ys ih => intro st h; exact ih _ (p34Step_WF h y)

theorem foldl_p1_frame : ∀ (l : List Int) (st : Store) {x : Int}, BmWF st →
    (∀ y ∈ l, x ≠ y) →
    firstBmFor (l.foldl p1Step st) x = firstBmFor st x ∧
    countBm (l.foldl p1Step st) x = countBm st x := by
  intro l
  induction l with
  | nil => intro st x _ _; exact ⟨rfl, rfl⟩
  | cons y ys ih =>
    intro st x hWF hne
    have hstep := p1Step_frame hWF (hne y (List.mem_cons_self y ys))
    have hrest := ih (p1Step st y) (p1Step_WF hWF y)
      (fun z hz => hne z (List.mem_cons_of_mem y hz))
    exact ⟨hrest.1.trans hstep.1, hrest.2.trans hstep.2⟩

theorem foldl_p2_frame : ∀ (l : List (Int × List Char × Nat)) (st : Store) {x : Int},
    BmWF st → (∀ it ∈ l, x ≠ it.1) →
    firstBmFor (l.foldl p2Step st) x = firstBmFor st x ∧
    countBm (l.foldl p2Step st) x = countBm st x := by
  intro l
  induction l with
  | nil => intro st x _ _; exact ⟨rfl, rfl⟩
  | cons y ys ih =>
    intro st x hWF hne
    have hstep := p2Step_frame hWF (hne y (List.mem_cons_self y ys))
    have hrest := ih (p2Step st y) (p2Step_WF hWF y)
      (fun z hz => hne z (List.mem_cons_of_mem y hz))
    exact ⟨hrest.1.trans hstep.1, hrest.2.trans hstep.2⟩

theorem foldl_p34_frame : ∀ (l : List (Int × List Char × List Char × Nat))
    (st : Store) {x : Int}, (∀ it ∈ l, x ≠ it.1) →
    firstBmFor (l.foldl p34Step st) x = firstBmFor st x ∧
    countBm (l.foldl p34Step st) x = countBm st x := by
  intro l
  induction l with
  | nil => intro st x _; exact ⟨rfl, rfl⟩
  | cons y ys ih =>
    intro st x hne
    have hstep := @p34Step_frame st _ y (hne y (List.mem_cons_self y ys))
    have hrest := ih (p34Step st y)
      (fun z hz => hne z (List.mem_cons_of_mem y hz))
    exact ⟨hrest.1.trans hstep.1, hrest.2.trans hstep.2⟩

/-! ## Claim C8: phase lists, establishment and no-op lemmas -/

theorem phase1_entries (sid : List Char) (st : Store) :
    (phase1 sid st).entries = st.entries :=
  foldl_pres (fun s => s.entries) p1Step p1Step_entries _ st

theorem phase2_entries (sid : List Char) (st : Store) :
    (phase2 sid st).entries = st.entries :=
  foldl_pres (fun s => s.entries) p2Step p2Step_entries _ st

theorem phase34_entries (sid : List Char) (st : Store) :
    (phase34 sid st).entries = st.entries :=
  foldl_pres (fun s => s.entries) p34Step p34Step_entries _ st

theorem ensure_entries (sid : List Char) (st : Store) :
    (ensure_auto_bookmarks_for_session sid st).entries = st.entries := by
  unfold ensure_auto_bookmarks_for_session
  rw [phase34_entries, phase2_entries, phase1_entries]

theorem mem_failIds {st : Store} {sid : List Char} {x : Int} :
    x ∈ query_failure_entries st sid ↔
      ∃ e ∈ st.entries, failPredB sid e = true ∧ e.id = x := by
  unfold query_failure_entries
  rw [List.mem_map]
  constructor
  · rintro ⟨e, he, rfl⟩
    rw [mem_isortBy] at he
    rcases List.mem_filter.mp he with ⟨h1, h2⟩
    exact ⟨e, h1, h2, rfl⟩
  · rintro ⟨e, he, hp, rfl⟩
    exact ⟨e, mem_isortBy.mpr (List.mem_filter.mpr ⟨he, hp⟩), rfl⟩

theorem mem_stepRows {st : Store} {sid : List Char} {it : Int × List Char × Nat} :
    it ∈ stepRows st sid ↔
      ∃ e ∈ st.entries, stepPredB sid e = true ∧
        it = (e.id, e.message, countBm st e.id) := by
  unfold stepRows
  rw [List.mem_map]
  constructor
  · rintro ⟨e, he, rfl⟩
    rw [mem_isortBy] at he
    rcases List.mem_filter.mp he with ⟨h1, h2⟩
    exact ⟨e, h1, h2, rfl⟩
  · rintro ⟨e, he, hp, rfl⟩
    exact ⟨e, mem_isortBy.mpr (List.mem_filter.mpr ⟨he, hp⟩), rfl⟩

theorem mem_p34Rows {st : Store} {sid : List Char}
    {it : Int × List Char × List Char × Nat} :
    it ∈ p34Rows st sid ↔
      ∃ e ∈ st.entries, p34PredB sid e = true ∧
        it = (e.id, e.message, e.level, countBm st e.id) := by
  unfold p34Rows
  rw [List.mem_map]
  constructor
  · rintro ⟨e, he, rfl⟩
    rw [mem_isortBy] at he
    rcases List.mem_filter.mp he with ⟨h1, h2⟩
    exact ⟨e, h1, h2, rfl⟩
  · rintro ⟨e, he, hp, rfl⟩
    exact ⟨e, mem_isortBy.mpr (List.mem_filter.mpr ⟨he, hp⟩), rfl⟩

theorem nodup_sorted_ids {st : Store} (p : StoredEntry → Bool)
    (hE : (st.entries.map (fun e => e.id)).Nodup) :
    ((isortBy leTs (st.entries.filter p)).map (fun e => e.id)).Nodup := by
  have h1 : ((st.entries.filter p).map (fun e => e.id)).Nodup :=
    List.Nodup.sublist (List.Sublist.map _ (List.filter_sublist _)) hE
  exact (List.Perm.nodup_iff ((isortBy_perm leTs _).map _)).mpr h1

theorem nodup_failIds {st : Store} {sid : List Char}
    (hE : (st.entries.map (fun e => e.id)).Nodup) :
    (query_failure_entries st sid).Nodup :=
  nodup_sorted_ids _ hE

theorem nodup_stepRows_fst {st : Store} {sid : List Char}
    (hE : (st.entries.map (fun e => e.id)).Nodup) :
    ((stepRows st sid).map (fun it => it.1)).Nodup := by
  unfold stepRows
  rw [List.map_map]
  exact nodup_sorted_ids _ hE

theorem nodup_p34Rows_fst {st : Store} {sid : List Char}
    (hE : (st.entries.map (fun e => e.id)).Nodup) :
    ((p34Rows st sid).map (fun it => it.1)).Nodup := by
  unfold p34Rows
  rw [List.map_map]
  exact nodup_sorted_ids _ hE

theorem entry_id_inj {st : Store}
    (hE : (st.entries.map (fun e => e.id)).Nodup) {e e' : StoredEntry}
    (he : e ∈ st.entries) (he' : e' ∈ st.entries) (h : e.id = e'.id) : e = e' :=
  List.inj_on_of_nodup_map hE he he' h

/-- A `[FAIL]` id never appears among the STEP rows. -/
theorem fail_not_step {st : Store} {sid : List Char}
    (hE : (st.entries.map (fun e => e.id)).Nodup) {x : Int}
    (hx : x ∈ query_failure_entries st sid) :
    ∀ it ∈ stepRows st sid, x ≠ it.1 := by
  intro it hit hc
  rcases mem_failIds.mp hx with ⟨e, he, hpe, rfl⟩
  rcases mem_stepRows.mp hit with ⟨e', he', hpe', rfl⟩
  dsimp only at hc
  have heq := entry_id_inj hE he he' hc
  subst heq
  simp only [failPredB, Bool.and_eq_true] at hpe
  simp only [stepPredB, Bool.and_eq_true, Bool.not_eq_true'] at hpe'
  rw [hpe.2] at hpe'
  exact absurd hpe'.2 (by simp)

/-- A `[FAIL]` id never appears among the priority-3/4 rows. -/
theorem fail_not_p34 {st : Store} {sid : List Char}
    (hE : (st.entries.map (fun e => e.id)).Nodup) {x : Int}
    (hx : x ∈ query_failure_entries st sid) :
    ∀ it ∈ p34Rows st sid, x ≠ it.1 := by
  intro it hit hc
  rcases mem_failIds.mp hx with ⟨e, he, hpe, rfl⟩
  rcases mem_p34Rows.mp hit with ⟨e', he', hpe', rfl⟩
  dsimp only at hc
  have heq := entry_id_inj hE he he' hc
  subst heq
  simp only [failPredB, Bool.and_eq_true] at hpe
  simp only [p34PredB, Bool.and_eq_true, Bool.not_eq_true'] at hpe'
  rw [hpe.2] at hpe'
  exact absurd hpe'.1.2 (by simp)

/-- A STEP id never appears among the priority-3/4 rows. -/
theorem step_not_p34 {st : Store} {sid : List Char}
    (hE : (st.entries.map (fun e => e.id)).Nodup)
    {it : Int × List Char × Nat} (hit : it ∈ stepRows st sid) :
    ∀ it' ∈ p34Rows st sid, it.1 ≠ it'.1 := by
  intro it' hit' hc
  rcases mem_stepRows.mp hit with ⟨e, he, hpe, rfl⟩
  rcases mem_p34Rows.mp hit' with ⟨e', he', hpe', rfl⟩
  dsimp only at hc
  have heq := entry_id_inj hE he he' hc
  subst heq
  simp only [stepPredB, Bool.and_eq_true] at hpe
  simp only [p34PredB, Bool.and_eq_true, Bool.not_eq_true'] at hpe'
  rw [hpe.1.2] at hpe'
  exact absurd hpe'.2 (by simp)

theorem p1_establish : ∀ (l : List Int) (st : Store), BmWF st → l.Nodup →
    ∀ x ∈ l, ∃ b, firstBmFor (l.foldl p1Step st) x = some b ∧
      b.color = some redColorL := by
  intro l
  induction l with
  | nil => intro st _ _ x hx; cases hx
  | cons y ys ih =>
    intro st hWF hnd x hx
    have hWF' := p1Step_WF hWF y
    rcases List.mem_cons.mp hx with rfl | hx'
    · have hred : ∃ b, firstBmFor (p1Step st x) x = some b ∧
          b.color = some redColorL := by
        unfold p1Step
        cases hfb : firstBmFor st x with
        | none =>
          rw [firstBmFor_addBm_self st x _ _ hfb]
          exact ⟨_, rfl, rfl⟩
        | some b =>
          dsimp only
          split
          case isTrue h =>
            rw [firstBmFor_update, hfb]
            refine ⟨{ b with color := some redColorL, title := some failTitleL }, ?_, rfl⟩
            show some (if b.id == b.id then
              { b with color := some redColorL, title := some failTitleL } else b) = _
            rw [if_pos (by simp)]
          case isFalse h =>
            push_neg at h
            exact ⟨b, hfb, h⟩
      rcases hred with ⟨b, hb, hcol⟩
      have hfr := foldl_p1_frame ys (p1Step st x) hWF'
        (by intro z hz hc; subst hc; exact (List.nodup_cons.mp hnd).1 hz)
      exact ⟨b, hfr.1.trans hb, hcol⟩
    · exact ih (p1Step st y) hWF' (List.nodup_cons.mp hnd).2 x hx'

theorem p1_exact : ∀ (l : List Int) (st : Store), BmWF st → l.Nodup →
    ∀ {x : Int} {b : BRow}, x ∈ l → firstBmFor st x = some b →
    b.color ≠ some redColorL →
    (firstBmFor (l.foldl p1Step st) x =
      some { b with color := some redColorL, title := some failTitleL } ∧
     countBm (l.foldl p1Step st) x = countBm st x) := by
  intro l
  induction l with
  | nil => intro st _ _ x b hx; cases hx
  | cons y ys ih =>
    intro st hWF hnd x b hx hfb hcol
    have hWF' := p1Step_WF hWF y
    rcases List.mem_cons.mp hx with rfl | hx'
    · have hstep : firstBmFor (p1Step st x) x =
          some { b with color := some redColorL, title := some failTitleL } ∧
          countBm (p1Step st x) x = countBm st x := by
        unfold p1Step
        rw [hfb]
        dsimp only
        rw [if_pos hcol]
        constructor
        · rw [firstBmFor_update, hfb]
          show some (if b.id == b.id then
            { b with color := some redColorL, title := some failTitleL } else b) = _
          rw [if_pos (by simp)]
        · exact countBm_update _ _ _ _ _
      have hfr := foldl_p1_frame ys (p1Step st x) hWF'
        (by intro z hz hc; subst hc; exact (List.nodup_cons.mp hnd).1 hz)
      exact ⟨hfr.1.trans hstep.1, hfr.2.trans hstep.2⟩
    · have hxy : x ≠ y := by
        intro hc
        exact (List.nodup_cons.mp hnd).1 (hc ▸ hx')
      have hfr := p1Step_frame hWF hxy
      have := ih (p1Step st y) hWF' (List.nodup_cons.mp hnd).2 hx'
        (hfr.1.trans hfb) hcol
      exact ⟨this.1, this.2.trans hfr.2⟩

theorem p2_establish : ∀ (l : List (Int × List Char × Nat)) (st : Store), BmWF st →
    (l.map (fun it => it.1)).Nodup →
    (∀ it ∈ l, it.2.2 = countBm st it.1) →
    ∀ it ∈ l, 0 < countBm (l.foldl p2Step st) it.1 ∧
      ∃ b, firstBmFor (l.foldl p2Step st) it.1 = some b ∧
        b.color = some cyanColorL := by
  intro l
  induction l with
  | nil => intro st _ _ _ it hit; cases hit
  | cons y ys ih =>
    intro st hWF hnd hcnt it hit
    have hWF' := p2Step_WF hWF y
    have hhead : y.1 ∉ ys.map (fun it => it.1) := by
      rw [List.map_cons] at hnd
      exact (List.nodup_cons.mp hnd).1
    have hnd' : (ys.map (fun it => it.1)).Nodup := by
      rw [List.map_cons] at hnd
      exact (List.nodup_cons.mp hnd).2
    have hcnt' : ∀ it' ∈ ys, it'.2.2 = countBm (p2Step st y) it'.1 := by
      intro it' hit'
      have hne : it'.1 ≠ y.1 := by
        intro hc
        exact hhead (hc ▸ List.mem_map.mpr ⟨it', hit', rfl⟩)
      rw [(p2Step_frame hWF hne).2]
      exact hcnt it' (List.mem_cons_of_mem y hit')
    rcases List.mem_cons.mp hit with rfl | hit'
    · have hstep : 0 < countBm (p2Step st it) it.1 ∧
          ∃ b, firstBmFor (p2Step st it) it.1 = some b ∧
            b.color = some cyanColorL := by
        have hcy := hcnt it (List.mem_cons_self it ys)
        unfold p2Step
        by_cases hpos : 0 < it.2.2
        · rw [if_pos hpos]
          have hcpos : 0 < countBm st it.1 := by rw [← hcy]; exact hpos
          have hsome := countBm_pos_iff.mp hcpos
          cases hfb : firstBmFor st it.1 with
          | none => rw [hfb] at hsome; cases hsome
          | some b =>
            dsimp only
            split
            · refine ⟨?_, ?_⟩
              · rw [countBm_update]; exact hcpos
              · rw [firstBmFor_update, hfb]
                refine ⟨{ b with color := some cyanColorL, title := some it.2.1 }, ?_, rfl⟩
                show some (if b.id == b.id then
                  { b with color := some cyanColorL, title := some it.2.1 } else b) = _
                rw [if_pos (by simp)]
            · rename_i h
              push_neg at h
              exact ⟨hcpos, b, hfb, h⟩
        · rw [if_neg hpos]
          have hz : countBm st it.1 = 0 := by omega
          have hfb := firstBmFor_eq_none_of_count_zero hz
          refine ⟨?_, ?_⟩
          · rw [countBm_addBm]
            simp
          · rw [firstBmFor_addBm_self st it.1 _ _ hfb]
            exact ⟨_, rfl, rfl⟩
      have hfr := foldl_p2_frame ys (p2Step st it) hWF'
        (by
          intro z hz hc
          have hm : z.1 ∈ ys.map (fun it => it.1) := List.mem_map.mpr ⟨z, hz, rfl⟩
          rw [← hc] at hm
          exact hhead hm)
      rcases hstep with ⟨hc1, b, hb, hcol⟩
      exact ⟨hfr.2 ▸ hc1, b, hfr.1.trans hb, hcol⟩
    · exact ih (p2Step st y) hWF' hnd' (fun z hz => hcnt' z hz) it hit'

theorem p34_establish : ∀ (l : List (Int × List Char × List Char × Nat)) (st : Store),
    (l.map (fun it => it.1)).Nodup →
    (∀ it ∈ l, it.2.2.2 = countBm st it.1) →
    ∀ it ∈ l, 0 < countBm (l.foldl p34Step st) it.1 ∨
      p34Title it.2.1 it.2.2.1 = none := by
  intro l
  induction l with
  | nil => intro st _ _ it hit; cases hit
  | cons y ys ih =>
    intro st hnd hcnt it hit
    have hhead : y.1 ∉ ys.map (fun it => it.1) := by
      rw [List.map_cons] at hnd
      exact (List.nodup_cons.mp hnd).1
    have hnd' : (ys.map (fun it => it.1)).Nodup := by
      rw [List.map_cons] at hnd
      exact (List.nodup_cons.mp hnd).2
    have hcnt' : ∀ it' ∈ ys, it'.2.2.2 = countBm (p34Step st y) it'.1 := by
      intro it' hit'
      have hne : it'.1 ≠ y.1 := by
        intro hc
        exact hhead (hc ▸ List.mem_map.mpr ⟨it', hit', rfl⟩)
      rw [(p34Step_frame hne).2]
      exact hcnt it' (List.mem_cons_of_mem y hit')
    have hfr := @foldl_p34_frame ys (p34Step st y) y.1
      (by
        intro z hz hc
        have hm : z.1 ∈ ys.map (fun it => it.1) := List.mem_map.mpr ⟨z, hz, rfl⟩
        rw [← hc] at hm
        exact hhead hm)
    rcases List.mem_cons.mp hit with rfl | hit'
    · have hcy := hcnt it (List.mem_cons_self it ys)
      by_cases hpos : 0 < it.2.2.2
      · left
        rw [List.foldl_cons, hfr.2]
        have hps : p34Step st it = st := by
          unfold p34Step
          rw [if_pos hpos]
        rw [hps, ← hcy]
        exact hpos
      · cases ht : p34Title it.2.1 it.2.2.1 with
        | none => exact Or.inr rfl
        | some t =>
          left
          rw [List.foldl_cons, hfr.2]
          have hps : p34Step st it = addBm st it.1 (some t) none := by
            unfold p34Step
            rw [if_neg hpos, ht]
          rw [hps, countBm_addBm]
          simp
    · exact ih (p34Step st y) hnd' (fun z hz => hcnt' z hz) it hit'

theorem p1_noop {sid : List Char} {st : Store}
    (h : ∀ x ∈ query_failure_entries st sid,
      ∃ b, firstBmFor st x = some b ∧ b.color = some redColorL) :
    phase1 sid st = st := by
  unfold phase1
  apply foldl_fixed
  intro x hx
  rcases h x hx with ⟨b, hb, hcol⟩
  unfold p1Step
  rw [hb]
  dsimp only
  rw [if_neg (by simp [hcol])]

theorem p2_noop {sid : List Char} {st : Store}
    (h : ∀ it ∈ stepRows st sid, 0 < countBm st it.1 ∧
      ∃ b, firstBmFor st it.1 = some b ∧ b.color = some cyanColorL) :
    phase2 sid st = st := by
  unfold phase2
  apply foldl_fixed
  intro it hit
  obtain ⟨hpos, b, hb, hcol⟩ := h it hit
  have hcnt : it.2.2 = countBm st it.1 := by
    rcases mem_stepRows.mp hit with ⟨e, _, _, heq⟩
    rw [heq]
  unfold p2Step
  rw [if_pos (by rw [hcnt]; exact hpos), hb]
  dsimp only
  rw [if_neg (by simp [hcol])]

theorem p34_noop {sid : List Char} {st : Store}
    (h : ∀ it ∈ p34Rows st sid,
      0 < countBm st it.1 ∨ p34Title it.2.1 it.2.2.1 = none) :
    phase34 sid st = st := by
  unfold phase34
  apply foldl_fixed
  intro it hit
  have hcnt : it.2.2.2 = countBm st it.1 := by
    rcases mem_p34Rows.mp hit with ⟨e, _, _, heq⟩
    rw [heq]
  unfold p34Step
  by_cases hp : 0 < it.2.2.2
  · rw [if_pos hp]
  · rw [if_neg hp]
    rcases h it hit with hpos | hnone
    · rw [hcnt] at hp
      exact absurd hpos hp
    · rw [hnone]

theorem failIds_congr {sid : List Char} {st st' : Store}
    (h : st'.entries = st.entries) :
    query_failure_entries st' sid = query_failure_entries st sid := by
  unfold query_failure_entries
  rw [h]

theorem stepRows_cnt (st : Store) (sid : List Char) :
    ∀ it ∈ stepRows st sid, it.2.2 = countBm st it.1 := by
  intro it hit
  rcases mem_stepRows.mp hit with ⟨e, _, _, heq⟩
  rw [heq]

theorem p34Rows_cnt (st : Store) (sid : List Char) :
    ∀ it ∈ p34Rows st sid, it.2.2.2 = countBm st it.1 := by
  intro it hit
  rcases mem_p34Rows.mp hit with ⟨e, _, _, heq⟩
  rw [heq]

/-- After a full run, every `[FAIL]` entry of the session has a red first
bookmark. -/
theorem ensure_post_fail {sid : List Char} {st : Store}
    (hE : (st.entries.map (fun e => e.id)).Nodup) (hWF : BmWF st) :
    ∀ x ∈ query_failure_entries st sid,
      ∃ b, firstBmFor (ensure_auto_bookmarks_for_session sid st) x = some b ∧
        b.color = some redColorL := by
  intro x hx
  have hE1 : ((phase1 sid st).entries.map (fun e => e.id)).Nodup := by
    rw [phase1_entries]; exact hE
  have hE2 : ((phase2 sid (phase1 sid st)).entries.map (fun e => e.id)).Nodup := by
    rw [phase2_entries, phase1_entries]; exact hE
  have hWF1 : BmWF (phase1 sid st) := foldl_p1_WF _ _ hWF
  have hx1 : x ∈ query_failure_entries (phase1 sid st) sid := by
    rw [failIds_congr (phase1_entries sid st)]; exact hx
  have hx2 : x ∈ query_failure_entries (phase2 sid (phase1 sid st)) sid := by
    rw [failIds_congr (phase2_entries sid (phase1 sid st))]; exact hx1
  rcases p1_establish (query_failure_entries st sid) st hWF (nodup_failIds hE) x hx
    with ⟨b, hb, hcol⟩
  have hb1 : firstBmFor (phase1 sid st) x = some b := hb
  have hfr2 := foldl_p2_frame (stepRows (phase1 sid st) sid) (phase1 sid st)
    hWF1 (fail_not_step hE1 hx1)
  have hb2 : firstBmFor (phase2 sid (phase1 sid st)) x = firstBmFor (phase1 sid st) x :=
    hfr2.1
  have hfr3 := foldl_p34_frame (p34Rows (phase2 sid (phase1 sid st)) sid)
    (phase2 sid (phase1 sid st)) (fail_not_p34 hE2 hx2)
  have hb3 : firstBmFor (phase34 sid (phase2 sid (phase1 sid st))) x =
      firstBmFor (phase2 sid (phase1 sid st)) x := hfr3.1
  refine ⟨b, ?_, hcol⟩
  show firstBmFor (phase34 sid (phase2 sid (phase1 sid st))) x = some b
  rw [hb3, hb2]; exact hb1

/-- After a full run, every `[STEP` MARKER entry of the session has at
least one bookmark, the first of which is cyan. -/
theorem ensure_post_step {sid : List Char} {st : Store}
    (hE : (st.entries.map (fun e => e.id)).Nodup) (hWF : BmWF st) :
    ∀ e ∈ st.entries, stepPredB sid e = true →
      0 < countBm (ensure_auto_bookmarks_for_session sid st) e.id ∧
      ∃ b, firstBmFor (ensure_auto_bookmarks_for_session sid st) e.id = some b ∧
        b.color = some cyanColorL := by
  intro e he hpe
  have hE1 : ((phase1 sid st).entries.map (fun e => e.id)).Nodup := by
    rw [phase1_entries]; exact hE
  have hE2 : ((phase2 sid (phase1 sid st)).entries.map (fun e => e.id)).Nodup := by
    rw [phase2_entries, phase1_entries]; exact hE
  have hWF1 : BmWF (phase1 sid st) := foldl_p1_WF _ _ hWF
  have he1 : e ∈ (phase1 sid st).entries := by
    rw [phase1_entries]; exact he
  have he2 : e ∈ (phase2 sid (phase1 sid st)).entries := by
    rw [phase2_entries]; exact he1
  have hit1 : (e.id, e.message, countBm (phase1 sid st) e.id)
      ∈ stepRows (phase1 sid st) sid :=
    mem_stepRows.mpr ⟨e, he1, hpe, rfl⟩
  obtain ⟨hpos2, b, hb2, hcol⟩ := p2_establish (stepRows (phase1 sid st) sid)
    (phase1 sid st) hWF1 (nodup_stepRows_fst hE1) (stepRows_cnt _ _) _ hit1
  have hpos2' : 0 < countBm (phase2 sid (phase1 sid st)) e.id := hpos2
  have hb2' : firstBmFor (phase2 sid (phase1 sid st)) e.id = some b := hb2
  have hit2 : (e.id, e.message, countBm (phase2 sid (phase1 sid st)) e.id)
      ∈ stepRows (phase2 sid (phase1 sid st)) sid :=
    mem_stepRows.mpr ⟨e, he2, hpe, rfl⟩
  have hfr3 := foldl_p34_frame (p34Rows (phase2 sid (phase1 sid st)) sid)
    (phase2 sid (phase1 sid st)) (step_not_p34 hE2 hit2)
  have hc3 : countBm (phase34 sid (phase2 sid (phase1 sid st))) e.id =
      countBm (phase2 sid (phase1 sid st)) e.id := hfr3.2
  have hf3 : firstBmFor (phase34 sid (phase2 sid (phase1 sid st))) e.id =
      firstBmFor (phase2 sid (phase1 sid st)) e.id := hfr3.1
  refine ⟨?_, b, ?_, hcol⟩
  · show 0 < countBm (phase34 sid (phase2 sid (phase1 sid st))) e.id
    rw [hc3]; exact hpos2'
  · show firstBmFor (phase34 sid (phase2 sid (phase1 sid st))) e.id = some b
    rw [hf3]; exact hb2'

/-- After a full run, every priority-3/4 entry of the session has a
bookmark unless its title resolves to nothing. -/
theorem ensure_post_p34 {sid : List Char} {st : Store}
    (hE : (st.entries.map (fun e => e.id)).Nodup) (_hWF : BmWF st) :
    ∀ e ∈ st.entries, p34PredB sid e = true →
      0 < countBm (ensure_auto_bookmarks_for_session sid st) e.id ∨
        p34Title e.message e.level = none := by
  intro e he hpe
  have hE2 : ((phase2 sid (phase1 sid st)).entries.map (fun e => e.id)).Nodup := by
    rw [phase2_entries, phase1_entries]; exact hE
  have he2 : e ∈ (phase2 sid (phase1 sid st)).entries := by
    rw [phase2_entries, phase1_entries]; exact he
  have hit2 : (e.id, e.message, e.level, countBm (phase2 sid (phase1 sid st)) e.id)
      ∈ p34Rows (phase2 sid (phase1 sid st)) sid :=
    mem_p34Rows.mpr ⟨e, he2, hpe, rfl⟩
  have h3 := p34_establish (p34Rows (phase2 sid (phase1 sid st)) sid)
    (phase2 sid (phase1 sid st)) (nodup_p34Rows_fst hE2) (p34Rows_cnt _ _) _ hit2
  rcases h3 with h | h
  · exact Or.inl h
  · exact Or.inr h

/-- A second run changes nothing: each phase of the second run is a
no-op at the final store of the first run. -/
theorem ensure_idem_aux {sid : List Char} {st : Store}
    (hE : (st.entries.map (fun e => e.id)).Nodup) (hWF : BmWF st) :
    ensure_auto_bookmarks_for_session sid (ensure_auto_bookmarks_for_session sid st)
      = ensure_auto_bookmarks_for_session sid st := by
  have hn1 : phase1 sid (ensure_auto_bookmarks_for_session sid st)
      = ensure_auto_bookmarks_for_session sid st := by
    apply p1_noop
    intro x hx
    apply ensure_post_fail hE hWF
    rw [← failIds_congr (ensure_entries sid st)]
    exact hx
  have hn2 : phase2 sid (ensure_auto_bookmarks_for_session sid st)
      = ensure_auto_bookmarks_for_session sid st := by
    apply p2_noop
    intro it hit
    rcases mem_stepRows.mp hit with ⟨e, he, hpe, heq⟩
    rw [ensure_entries] at he
    have h := ensure_post_step hE hWF e he hpe
    subst heq
    exact h
  have hn34 : phase34 sid (ensure_auto_bookmarks_for_session sid st)
      = ensure_auto_bookmarks_for_session sid st := by
    apply p34_noop
    intro it hit
    rcases mem_p34Rows.mp hit with ⟨e, he, hpe, heq⟩
    rw [ensure_entries] at he
    have h := ensure_post_p34 hE hWF e he hpe
    subst heq
    exact h
  show phase34 sid (phase2 sid (phase1 sid (ensure_auto_bookmarks_for_session sid st)))
      = ensure_auto_bookmarks_for_session sid st
  rw [hn1, hn2, hn34]

/-- A `[FAIL]` entry with a pre-existing non-red bookmark keeps that
bookmark row, upgraded in place to red `Failure`, and gains no new row. -/
theorem ensure_upgrade_aux {sid : List Char} {st : Store}
    (hE : (st.entries.map (fun e => e.id)).Nodup) (hWF : BmWF st)
    {e : StoredEntry} {b : BRow}
    (he : e ∈ st.entries) (hpe : failPredB sid e = true)
    (hfb : firstBmFor st e.id = some b) (hcol : b.color ≠ some redColorL) :
    firstBmFor (ensure_auto_bookmarks_for_session sid st) e.id =
      some { b with color := some redColorL, title := some failTitleL } ∧
    countBm (ensure_auto_bookmarks_for_session sid st) e.id = countBm st e.id := by
  have hx : e.id ∈ query_failure_entries st sid := mem_failIds.mpr ⟨e, he, hpe, rfl⟩
  have hE1 : ((phase1 sid st).entries.map (fun x => x.id)).Nodup := by
    rw [phase1_entries]; exact hE
  have hE2 : ((phase2 sid (phase1 sid st)).entries.map (fun x => x.id)).Nodup := by
    rw [phase2_entries, phase1_entries]; exact hE
  have hWF1 : BmWF (phase1 sid st) := foldl_p1_WF _ _ hWF
  have hx1 : e.id ∈ query_failure_entries (phase1 sid st) sid := by
    rw [failIds_congr (phase1_entries sid st)]; exact hx
  have hx2 : e.id ∈ query_failure_entries (phase2 sid (phase1 sid st)) sid := by
    rw [failIds_congr (phase2_entries sid (phase1 sid st))]; exact hx1
  have h1 := p1_exact (query_failure_entries st sid) st hWF (nodup_failIds hE)
    hx hfb hcol
  have hf1 : firstBmFor (phase1 sid st) e.id =
      some { b with color := some redColorL, title := some failTitleL } := h1.1
  have hc1 : countBm (phase1 sid st) e.id = countBm st e.id := h1.2
  have hfr2 := foldl_p2_frame (stepRows (phase1 sid st) sid) (phase1 sid st)
    hWF1 (fail_not_step hE1 hx1)
  have hf2 : firstBmFor (phase2 sid (phase1 sid st)) e.id =
      firstBmFor (phase1 sid st) e.id := hfr2.1
  have hc2 : countBm (phase2 sid (phase1 sid st)) e.id =
      countBm (phase1 sid st) e.id := hfr2.2
  have hfr3 := foldl_p34_frame (p34Rows (phase2 sid (phase1 sid st)) sid)
    (phase2 sid (phase1 sid st)) (fail_not_p34 hE2 hx2)
  have hf3 : firstBmFor (phase34 sid (phase2 sid (phase1 sid st))) e.id =
      firstBmFor (phase2 sid (phase1 sid st)) e.id := hfr3.1
  have hc3 : countBm (phase34 sid (phase2 sid (phase1 sid st))) e.id =
      countBm (phase2 sid (phase1 sid st)) e.id := hfr3.2
  constructor
  · show firstBmFor (phase34 sid (phase2 sid (phase1 sid st))) e.id = _
    rw [hf3, hf2]; exact hf1
  · show countBm (phase34 sid (phase2 sid (phase1 sid st))) e.id = countBm st e.id
    rw [hc3, hc2]; exact hc1

/-- C8: `ensure_auto_bookmarks_for_session` is idempotent — running it
twice on the same session state yields the same final bookmark table as
running it once — and it upgrades in place: an entry whose message
matches `LIKE '%[FAIL]'` (in particular, one ending in `[FAIL]`) that
already carries a bookmark whose colour is not `#F56C6C` keeps that
same bookmark row, updated to colour `#F56C6C` and title `Failure`,
with no new bookmark row created for the entry. Hypotheses: entry ids
are unique, bookmark ids are unique and below the AUTOINCREMENT
counter — facts SQLite guarantees for primary keys. -/
theorem c8_bookmark_synthesizer (sid : List Char) (st : Store)
    (hE : (st.entries.map (fun e => e.id)).Nodup) (hWF : BmWF st) :
    ensure_auto_bookmarks_for_session sid (ensure_auto_bookmarks_for_session sid st)
      = ensure_auto_bookmarks_for_session sid st ∧
    ∀ e ∈ st.entries, ∀ b : BRow, (e.session == sid) = true →
      likeMatch failPat e.message = true →
      firstBmFor st e.id = some b → b.color ≠ some redColorL →
      firstBmFor (ensure_auto_bookmarks_for_session sid st) e.id =
        some { b with color := some redColorL, title := some failTitleL } ∧
      countBm (ensure_auto_bookmarks_for_session sid st) e.id = countBm st e.id := by
  refine ⟨ensure_idem_aux hE hWF, ?_⟩
  intro e he b hs hf hfb hcol
  exact ensure_upgrade_aux hE hWF he (by simp [failPredB, hs, hf]) hfb hcol

/-- Witness for C8: a store with one `[FAIL]` entry (id 10) carrying a
colourless user bookmark (id 7); the run is idempotent and upgrades
bookmark 7 in place without adding a row. -/
theorem c8_bookmark_synthesizer_witness :
    ((stFailW.entries.map (fun e => e.id)).Nodup ∧ BmWF stFailW) ∧
    ensure_auto_bookmarks_for_session (strL "s")
        (ensure_auto_bookmarks_for_session (strL "s") stFailW)
      = ensure_auto_bookmarks_for_session (strL "s") stFailW ∧
    firstBmFor (ensure_auto_bookmarks_for_session (strL "s") stFailW) entryFailW.id =
      some { bmNoteW with color := some redColorL, title := some failTitleL } ∧
    countBm (ensure_auto_bookmarks_for_session (strL "s") stFailW) entryFailW.id
      = countBm stFailW entryFailW.id := by
  have hwf : BmWF stFailW := ⟨by decide, by decide⟩
  have hlm : likeMatch failPat entryFailW.message = true := by
    simp +decide [likeMatch, failPat, entryFailW, entryInfo, strL]
  have h := c8_bookmark_synthesizer (strL "s") stFailW (by decide) hwf
  have h2 := h.2 entryFailW (by decide) bmNoteW (by decide) hlm (by decide)
    (by decide)
  exact ⟨⟨by decide, hwf⟩, h.1, h2.1, h2.2⟩

end LogTerm
